import Mathlib

/-!
Verification of the 13F holdings analytics core (`analysis.py`,
`financial_data.py`): a shallow embedding in Lean 4 of the weighting,
de-duplication, overlap, valuation, quarter-over-quarter diff and
normalization functions, together with theorems checking the
natural-language specification against the embedded code.

Numbers are modelled as exact rationals; Python's `round(x, d)` is modelled
as round-to-nearest at `d` decimal places (ties away from the midpoint do
not arise in any statement below).
-/

namespace HoldingsApp

/-- Python `round(x, d)` modelled on rationals: scale by `10^d`, round to the
nearest integer, and scale back. -/
def roundTo (d : ℕ) (x : ℚ) : ℚ := (round (x * 10 ^ d) : ℚ) / 10 ^ d

/-- Python truthiness for an optional string (`if r.get("sector"):`): `none`
and the empty string are falsy. -/
def truthyStr (o : Option String) : Option String :=
  match o with
  | none => none
  | some s => if s = "" then none else some s

/-- `_GROWTH_CAP = 50.0` from `analysis.py`. -/
def GROWTH_CAP : ℚ := 50

/-- `_clamp_growth` from `analysis.py`: clamp a growth rate to
`[-50, +50]`, passing `None` through. -/
def clampGrowth (val : Option ℚ) : Option ℚ :=
  match val with
  | none => none
  | some v => some (max (-GROWTH_CAP) (min GROWTH_CAP v))

/-- One entry of a `monthly_returns` list: `{month, return_pct}`. -/
abbrev MonthRet := String × Option ℚ

/-- Python truthiness for an optional list (`if r.get("monthly_returns"):`):
`none` and the empty list are falsy. -/
def truthyList (o : Option (List MonthRet)) : Option (List MonthRet) :=
  match o with
  | none => none
  | some l => if l = [] then none else some l

/-- One holdings row (a Python dict in the source). `ticker = none` models a
row with no `"ticker"` key at all; the string `"N/A"` is the unknown-ticker
sentinel value. `pct_of_portfolio` is modelled as a plain rational (the code
reads it with `r.get("pct_of_portfolio", 0) or 0`). -/
structure Row where
  manager : String
  ticker : Option String
  name : String
  value_usd : ℚ
  pct_of_portfolio : ℚ
  rank : ℚ
  sector : Option String
  industry : Option String
  forward_pe : Option ℚ
  forward_eps_growth : Option ℚ
  dividend_yield : Option ℚ
  forward_revenue_growth : Option ℚ
  forward_ps : Option ℚ
  filing_price_qtr_end : Option ℚ := none
  current_price : Option ℚ := none
  qtd_return_pct : Option ℚ := none
  filing_reported_eps : Option ℚ := none
  filing_eps_beat_dollars : Option ℚ := none
  filing_eps_beat_pct : Option ℚ := none
  monthly_returns : Option (List MonthRet) := none
deriving DecidableEq, Repr

/-- `r.get("ticker", "N/A")` from the source. -/
def Row.tickerNA (r : Row) : String := r.ticker.getD "N/A"

/-- A row together with the `combined_weight` field added by
`_apply_manager_weights` (the code attaches it to a copy of the dict). -/
structure WRow extends Row where
  combined_weight : ℚ
deriving DecidableEq, Repr

/-! ### `_apply_manager_weights` (analysis.py lines 721-745) -/

/-- `managers = list({r["manager"] for r in all_rows})`: the distinct
managers appearing in the rows. -/
def managersOf (rows : List Row) : List String := (rows.map Row.manager).dedup

/-- The manager-weights argument: `none` models `manager_weights=None`;
`some l` models a dict given as an association list. -/
abbrev MgrWeights := Option (List (String × ℚ))

/-- The test `manager_weights and any(v > 0 for v in manager_weights.values())`:
the supplied dict is non-empty and has some entry `> 0`. -/
def weightsActive (mw : MgrWeights) : Bool :=
  match mw with
  | none => false
  | some l => !l.isEmpty && l.any (fun p => decide (0 < p.2))

/-- The per-manager weight assigned by `_apply_manager_weights`: the supplied
weight (`manager_weights.get(m, 0)`) when the weights are active, otherwise
the equal share `100.0 / len(managers)`. -/
def mgrWtFun (rows : List Row) (mw : MgrWeights) : String → ℚ :=
  if weightsActive mw then
    fun m => ((mw.getD []).lookup m).getD 0
  else
    fun m => 100 / (managersOf rows).length

/-- `sum(mgr_wt.values())`: the total of the assigned per-manager weights. -/
def rawTotalWt (rows : List Row) (mw : MgrWeights) : ℚ :=
  ((managersOf rows).map (mgrWtFun rows mw)).sum

/-- `total_wt = sum(mgr_wt.values()) or 1`: the raw total, substituted with
`1` when it is `0`. -/
def totalWt (rows : List Row) (mw : MgrWeights) : ℚ :=
  if rawTotalWt rows mw = 0 then 1 else rawTotalWt rows mw

/-- The body of the loop in `_apply_manager_weights`:
`combined = (pct / 100.0) * (mw / total_wt) * 100.0`, rounded to 4 decimals
and attached to a copy of the row. -/
def weightRow (rows : List Row) (mw : MgrWeights) (r : Row) : WRow :=
  { toRow := r
    combined_weight :=
      roundTo 4 ((r.pct_of_portfolio / 100) * (mgrWtFun rows mw r.manager / totalWt rows mw) * 100) }

/-- `_apply_manager_weights(all_rows, manager_weights)`: returns the weighted
rows and the total weight. -/
def applyManagerWeights (rows : List Row) (mw : MgrWeights) : List WRow × ℚ :=
  (rows.map (weightRow rows mw), totalWt rows mw)

/-! Spec-side definitions for claim C1, written from the specification's
words, to be compared with the embedded code. -/

/-- Modelled from the spec wording for C1: each manager gets the equal share
`100/N` when the weights map is absent or has no entry `> 0`; otherwise each
manager gets its given weight and managers missing from the map get `0`. -/
def claimManagerWeight (rows : List Row) (mw : MgrWeights) (m : String) : ℚ :=
  match mw with
  | none => 100 / (managersOf rows).length
  | some l =>
      if l.any (fun p => decide (0 < p.2)) then (l.lookup m).getD 0
      else 100 / (managersOf rows).length

/-- Modelled from the spec wording for C1: `total_weight` is the sum of the
manager weights, substituted with `1` when that sum is `0`. -/
def claimTotalWeight (rows : List Row) (mw : MgrWeights) : ℚ :=
  let s := ((managersOf rows).map (claimManagerWeight rows mw)).sum
  if s = 0 then 1 else s

theorem weightsActive_iff (l : List (String × ℚ)) :
    weightsActive (some l) = l.any (fun p => decide (0 < p.2)) := by
  unfold weightsActive
  cases l with
  | nil => simp
  | cons p t => simp [List.isEmpty]

theorem claimManagerWeight_eq (rows : List Row) (mw : MgrWeights) (m : String) :
    claimManagerWeight rows mw m = mgrWtFun rows mw m := by
  unfold claimManagerWeight mgrWtFun
  cases mw with
  | none => simp [weightsActive]
  | some l =>
      rw [weightsActive_iff]
      by_cases h : l.any (fun p => decide (0 < p.2)) = true
      · simp [h, Option.getD]
      · simp [h]

theorem claimTotalWeight_eq (rows : List Row) (mw : MgrWeights) :
    claimTotalWeight rows mw = totalWt rows mw := by
  unfold claimTotalWeight totalWt rawTotalWt
  have h : ((managersOf rows).map (claimManagerWeight rows mw)).sum
      = ((managersOf rows).map (mgrWtFun rows mw)).sum := by
    congr 1
    exact List.map_congr_left (fun m _ => claimManagerWeight_eq rows mw m)
  simp only [h]

/-- Claim C1: for every non-empty list of records and every optional
manager-weights map, `_apply_manager_weights` assigns each record
`combined_weight = (pct_of_portfolio/100) × (manager_weight/total_weight) × 100`
rounded to 4 decimals, where each manager gets equal share `100/N` when the
weights map is absent or has no entry `> 0`, managers missing from a supplied
weights map get weight `0`, and `total_weight` is the sum of the manager
weights, substituted with `1` when that sum is `0`. -/
theorem apply_manager_weights_correct (rows : List Row) (mw : MgrWeights)
    (hne : rows ≠ []) :
    (applyManagerWeights rows mw).1 = rows.map (fun r =>
      { toRow := r
        combined_weight := roundTo 4 ((r.pct_of_portfolio / 100) *
          (claimManagerWeight rows mw r.manager / claimTotalWeight rows mw) * 100) }) := by
  unfold applyManagerWeights
  simp only []
  apply List.map_congr_left
  intro r _
  unfold weightRow
  rw [claimManagerWeight_eq, claimTotalWeight_eq]

/-- Concrete input for the C1 witness: manager weights `{A:70, B:30}`, A
holds TICK at 40% of portfolio and B holds TICK at 20%. -/
def rowA : Row :=
  { manager := "A", ticker := some "TICK", name := "Tick Corp", value_usd := 400
    pct_of_portfolio := 40, rank := 1, sector := none, industry := none
    forward_pe := none, forward_eps_growth := none, dividend_yield := none
    forward_revenue_growth := none, forward_ps := none }

def rowB : Row :=
  { manager := "B", ticker := some "TICK", name := "Tick Corp", value_usd := 200
    pct_of_portfolio := 20, rank := 1, sector := none, industry := none
    forward_pe := none, forward_eps_growth := none, dividend_yield := none
    forward_revenue_growth := none, forward_ps := none }

def exampleWeights : MgrWeights := some [("A", 70), ("B", 30)]

/-- Witness for C1: the theorem applied at the spec's worked example
(weights `{A:70, B:30}`, A holds TICK at 40%, B at 20%); additionally the
two combined-weight contributions evaluate to 28 and 6, summing to 34. -/
theorem apply_manager_weights_correct_witness :
    ((applyManagerWeights [rowA, rowB] exampleWeights).1 = [rowA, rowB].map (fun r =>
      { toRow := r
        combined_weight := roundTo 4 ((r.pct_of_portfolio / 100) *
          (claimManagerWeight [rowA, rowB] exampleWeights r.manager /
            claimTotalWeight [rowA, rowB] exampleWeights) * 100) })) ∧
    ((applyManagerWeights [rowA, rowB] exampleWeights).1.map WRow.combined_weight
      = [28, 6]) ∧ ((28 : ℚ) + 6 = 34) := by
  refine ⟨apply_manager_weights_correct [rowA, rowB] exampleWeights (by simp), ?_, by norm_num⟩
  have hw : weightsActive exampleWeights = true := by
    unfold exampleWeights weightsActive
    norm_num
  have hm : managersOf [rowA, rowB] = ["A", "B"] := by
    unfold managersOf rowA rowB
    simp [List.dedup]
  have hfA : mgrWtFun [rowA, rowB] exampleWeights "A" = 70 := by
    unfold mgrWtFun
    rw [hw]
    simp [exampleWeights, List.lookup]
  have hfB : mgrWtFun [rowA, rowB] exampleWeights "B" = 30 := by
    unfold mgrWtFun
    rw [hw]
    simp [exampleWeights, List.lookup]
  have htot : totalWt [rowA, rowB] exampleWeights = 100 := by
    unfold totalWt rawTotalWt
    rw [hm]
    simp only [List.map_cons, List.map_nil, List.sum_cons, List.sum_nil, hfA, hfB]
    norm_num
  unfold applyManagerWeights weightRow
  simp only [List.map_cons, List.map_nil, htot,
    show rowA.manager = "A" from rfl, show rowB.manager = "B" from rfl,
    show rowA.pct_of_portfolio = 40 from rfl,
    show rowB.pct_of_portfolio = 20 from rfl, hfA, hfB]
  unfold roundTo
  norm_num [round_eq]

/-! ### Claim C2: the combined weights of a fully-allocated portfolio sum to 100 -/

/-- The exact (un-rounded) combined weight of one record. -/
def exactCombined (rows : List Row) (mw : MgrWeights) (r : Row) : ℚ :=
  (r.pct_of_portfolio / 100) * (mgrWtFun rows mw r.manager / totalWt rows mw) * 100

/-- The sum of `combined_weight` over all weighted rows. -/
def sumCombined (rows : List Row) (mw : MgrWeights) : ℚ :=
  ((applyManagerWeights rows mw).1.map WRow.combined_weight).sum

theorem sum_map_add {α : Type} (l : List α) (g h : α → ℚ) :
    (l.map (fun x => g x + h x)).sum = (l.map g).sum + (l.map h).sum := by
  induction l with
  | nil => simp
  | cons x t ih => simp [ih]; ring

theorem sum_map_mul_const {α : Type} (l : List α) (f : α → ℚ) (c : ℚ) :
    (l.map (fun x => f x * c)).sum = (l.map f).sum * c := by
  induction l with
  | nil => simp
  | cons x t ih => simp [ih]; ring

theorem sum_ite_key (ms : List String) (x : String) (c : ℚ)
    (hnd : ms.Nodup) (hx : x ∈ ms) :
    (ms.map (fun m => if x = m then c else 0)).sum = c := by
  induction ms with
  | nil => cases hx
  | cons m t ih =>
      rcases List.mem_cons.mp hx with h | h
      · subst h
        have hnotin : x ∉ t := (List.nodup_cons.mp hnd).1
        have : (t.map (fun m => if x = m then c else 0)).sum = 0 := by
          have : ∀ m ∈ t, (if x = m then c else 0) = 0 := by
            intro m hm
            have : x ≠ m := fun he => hnotin (he ▸ hm)
            simp [this]
          rw [List.map_congr_left this]
          simp
        simp [this]
      · have hxm : x ≠ m := by
          intro he
          exact (List.nodup_cons.mp hnd).1 (he ▸ h)
        simp [hxm, ih (List.nodup_cons.mp hnd).2 h]

/-- Partition a sum over rows into sums over each manager's rows. -/
theorem sum_partition (ms : List String) (rows : List Row) (f : Row → ℚ)
    (hnd : ms.Nodup) (hall : ∀ r ∈ rows, r.manager ∈ ms) :
    (rows.map f).sum
      = (ms.map (fun m => ((rows.filter (fun r => r.manager == m)).map f).sum)).sum := by
  induction rows with
  | nil => simp
  | cons r t ih =>
      have hall' : ∀ x ∈ t, x.manager ∈ ms := fun x hx => hall x (List.mem_cons_of_mem r hx)
      have hfil : ∀ m, (r :: t).filter (fun x => x.manager == m)
          = if r.manager = m then r :: t.filter (fun x => x.manager == m)
            else t.filter (fun x => x.manager == m) := by
        intro m
        rw [List.filter_cons]
        by_cases h : r.manager = m
        · simp [h]
        · simp [h]
      have step : ∀ m ∈ ms, (((r :: t).filter (fun x => x.manager == m)).map f).sum
          = (if r.manager = m then f r else 0)
            + ((t.filter (fun x => x.manager == m)).map f).sum := by
        intro m _
        rw [hfil m]
        by_cases h : r.manager = m
        · simp [h]
        · simp [h]
      rw [List.map_congr_left step, sum_map_add,
        sum_ite_key ms r.manager (f r) hnd (hall r (List.mem_cons_self r t))]
      simp [ih hall']

/-- With a nonzero raw total weight, the exact combined weights of a
fully-allocated record set sum to exactly 100. -/
theorem exact_sum_eq_100 (rows : List Row) (mw : MgrWeights)
    (h1 : ∀ m ∈ managersOf rows,
      ((rows.filter (fun r => r.manager == m)).map Row.pct_of_portfolio).sum = 100)
    (h2 : rawTotalWt rows mw ≠ 0) :
    (rows.map (exactCombined rows mw)).sum = 100 := by
  have hW : totalWt rows mw = rawTotalWt rows mw := by
    unfold totalWt
    simp [h2]
  have hnd : (managersOf rows).Nodup := List.nodup_dedup _
  have hall : ∀ r ∈ rows, r.manager ∈ managersOf rows := by
    intro r hr
    exact List.mem_dedup.mpr (List.mem_map_of_mem Row.manager hr)
  rw [sum_partition (managersOf rows) rows _ hnd hall]
  have inner : ∀ m ∈ managersOf rows,
      ((rows.filter (fun r => r.manager == m)).map (exactCombined rows mw)).sum
        = mgrWtFun rows mw m * (100 / rawTotalWt rows mw) := by
    intro m hm
    have hcongr : ∀ r ∈ rows.filter (fun r => r.manager == m),
        exactCombined rows mw r
          = r.pct_of_portfolio * (mgrWtFun rows mw m / rawTotalWt rows mw) := by
      intro r hr
      have hmg : r.manager = m := by
        have := List.of_mem_filter hr
        simpa using this
      unfold exactCombined
      rw [hmg, hW]
      ring
    rw [List.map_congr_left hcongr,
      sum_map_mul_const _ Row.pct_of_portfolio (mgrWtFun rows mw m / rawTotalWt rows mw),
      h1 m hm]
    ring
  rw [List.map_congr_left inner]
  have : ∀ m ∈ managersOf rows,
      mgrWtFun rows mw m * (100 / rawTotalWt rows mw)
        = (fun m => mgrWtFun rows mw m * (100 / rawTotalWt rows mw)) m := fun m _ => rfl
  rw [sum_map_mul_const (managersOf rows) (mgrWtFun rows mw) (100 / rawTotalWt rows mw)]
  have : ((managersOf rows).map (mgrWtFun rows mw)).sum = rawTotalWt rows mw := rfl
  rw [this]
  field_simp

/-- Rounding to `d` decimals moves a rational by at most `1/(2·10^d)`. -/
theorem abs_roundTo_sub (d : ℕ) (x : ℚ) : |roundTo d x - x| ≤ 1 / (2 * 10 ^ d) := by
  have hpow : (0:ℚ) < 10 ^ d := by positivity
  have : roundTo d x - x = ((round (x * 10 ^ d) : ℚ) - x * 10 ^ d) / 10 ^ d := by
    unfold roundTo
    field_simp
    ring
  rw [this, abs_div, abs_of_pos hpow]
  have h := abs_sub_round (x * 10 ^ d)
  rw [div_le_div_iff hpow (by positivity)]
  calc |(round (x * 10 ^ d) : ℚ) - x * 10 ^ d| * (2 * 10 ^ d)
      ≤ (1/2) * (2 * 10 ^ d) := by
        apply mul_le_mul_of_nonneg_right _ (by positivity)
        simpa [abs_sub_comm] using h
    _ = 1 * 10 ^ d := by ring

/-- A sum of rounded terms stays within `n·c` of the sum of the exact terms
when each term moves by at most `c`. -/
theorem sum_map_abs_diff_le {α : Type} (l : List α) (g f : α → ℚ) (c : ℚ)
    (h : ∀ x ∈ l, |g x - f x| ≤ c) :
    |(l.map g).sum - (l.map f).sum| ≤ l.length * c := by
  induction l with
  | nil => simp
  | cons x t ih =>
      have hx := h x (List.mem_cons_self x t)
      have ht : ∀ y ∈ t, |g y - f y| ≤ c := fun y hy => h y (List.mem_cons_of_mem x hy)
      have hrec := ih ht
      have key : |(g x + (t.map g).sum) - (f x + (t.map f).sum)|
          ≤ |g x - f x| + |(t.map g).sum - (t.map f).sum| := by
        have : (g x + (t.map g).sum) - (f x + (t.map f).sum)
            = (g x - f x) + ((t.map g).sum - (t.map f).sum) := by ring
        rw [this]
        exact abs_add _ _
      simp only [List.map_cons, List.sum_cons, List.length_cons]
      calc |(g x + (t.map g).sum) - (f x + (t.map f).sum)|
          ≤ |g x - f x| + |(t.map g).sum - (t.map f).sum| := key
        _ ≤ c + t.length * c := add_le_add hx hrec
        _ = (t.length + 1 : ℚ) * c := by ring
        _ = ((t.length + 1 : ℕ) : ℚ) * c := by push_cast; ring

/-- Claim C2 (amended): for every set of at most 200 records in which each
manager's `pct_of_portfolio` values sum to exactly 100, and for every
manager-weights configuration assigning the managers present a nonzero raw
total weight (as equal-share weighting always does), the sum of
`combined_weight` over all rows returned by `_apply_manager_weights` equals
100 to within ±0.01, each per-record value being rounded to 4 decimals
before summing. -/
theorem sum_combined_within_tolerance (rows : List Row) (mw : MgrWeights)
    (h1 : ∀ m ∈ managersOf rows,
      ((rows.filter (fun r => r.manager == m)).map Row.pct_of_portfolio).sum = 100)
    (h2 : rawTotalWt rows mw ≠ 0)
    (h3 : rows.length ≤ 200) :
    |sumCombined rows mw - 100| ≤ 1 / 100 := by
  have hs : sumCombined rows mw = (rows.map (fun r => roundTo 4 (exactCombined rows mw r))).sum := by
    unfold sumCombined applyManagerWeights
    rw [List.map_map]
    rfl
  have hexact := exact_sum_eq_100 rows mw h1 h2
  have hbound : ∀ r ∈ rows,
      |roundTo 4 (exactCombined rows mw r) - exactCombined rows mw r| ≤ 1 / 20000 := by
    intro r _
    have := abs_roundTo_sub 4 (exactCombined rows mw r)
    norm_num at this ⊢
    exact this
  have hdiff := sum_map_abs_diff_le rows (fun r => roundTo 4 (exactCombined rows mw r))
    (exactCombined rows mw) (1 / 20000) hbound
  rw [hexact] at hdiff
  rw [hs]
  have hlen : (rows.length : ℚ) ≤ 200 := by exact_mod_cast h3
  calc |(rows.map (fun r => roundTo 4 (exactCombined rows mw r))).sum - 100|
      ≤ rows.length * (1 / 20000) := hdiff
    _ ≤ 200 * (1 / 20000) := by
        apply mul_le_mul_of_nonneg_right hlen
        norm_num
    _ = 1 / 100 := by norm_num

/-- A fully-allocated single-manager record for the C2 counterexample and
witness. -/
def cxRow : Row :=
  { manager := "A", ticker := some "TICK", name := "Tick Corp", value_usd := 1000
    pct_of_portfolio := 100, rank := 1, sector := none, industry := none
    forward_pe := none, forward_eps_growth := none, dividend_yield := none
    forward_revenue_growth := none, forward_ps := none }

/-- A weights map whose only positive entry names a manager absent from the
records. -/
def cxWeights : MgrWeights := some [("B", 50)]

/-- Counterexample to claim C2 as stated: the records are fully allocated
per manager (the single manager's percentages sum to exactly 100), yet with
the weights map `{B: 50}` — whose only positive entry names an absent
manager — every present manager is assigned weight 0, the total substitutes
to 1, and the combined weights sum to 0, not 100 ± 0.01. -/
theorem sum_combined_counterexample :
    (∀ m ∈ managersOf [cxRow],
      (([cxRow].filter (fun r => r.manager == m)).map Row.pct_of_portfolio).sum = 100) ∧
    sumCombined [cxRow] cxWeights = 0 ∧
    ¬ |sumCombined [cxRow] cxWeights - 100| ≤ 1 / 100 := by
  have hm : managersOf [cxRow] = ["A"] := by
    unfold managersOf cxRow
    simp [List.dedup]
  have hw : weightsActive cxWeights = true := by
    unfold cxWeights weightsActive
    norm_num
  have hf : mgrWtFun [cxRow] cxWeights "A" = 0 := by
    unfold mgrWtFun
    rw [hw]
    simp [cxWeights, List.lookup]
  have hraw : rawTotalWt [cxRow] cxWeights = 0 := by
    unfold rawTotalWt
    rw [hm]
    simp [hf]
  have htot : totalWt [cxRow] cxWeights = 1 := by
    unfold totalWt
    simp [hraw]
  have hsum : sumCombined [cxRow] cxWeights = 0 := by
    unfold sumCombined applyManagerWeights weightRow
    simp only [List.map_cons, List.map_nil, htot,
      show cxRow.manager = "A" from rfl, hf,
      show cxRow.pct_of_portfolio = 100 from rfl]
    unfold roundTo
    norm_num [round_eq]
  refine ⟨?_, hsum, ?_⟩
  · intro m hmem
    rw [hm] at hmem
    simp only [List.mem_singleton] at hmem
    subst hmem
    simp [cxRow, List.filter]
  · rw [hsum]
    norm_num

/-- Witness for the amended claim C2: one fully-allocated manager with no
weights map supplied satisfies all hypotheses, and the theorem applies. -/
theorem sum_combined_within_tolerance_witness :
    |sumCombined [cxRow] none - 100| ≤ 1 / 100 := by
  apply sum_combined_within_tolerance
  · intro m hmem
    have hm : managersOf [cxRow] = ["A"] := by
      unfold managersOf cxRow
      simp [List.dedup]
    rw [hm] at hmem
    simp only [List.mem_singleton] at hmem
    subst hmem
    simp [cxRow, List.filter]
  · have hm : managersOf [cxRow] = ["A"] := by
      unfold managersOf cxRow
      simp [List.dedup]
    unfold rawTotalWt mgrWtFun
    rw [hm]
    simp [weightsActive, hm]
  · simp

/-! ### Ordered-dict machinery

Python dicts (and `defaultdict`s) keyed by strings are modelled as ordered
association lists: a new key is appended at the end, an existing key is
updated in place. -/

/-- Insert-or-update in an ordered association list: if `k` is present its
value is transformed by `f` in place, otherwise `(k, f d)` is appended. -/
def updateAssoc {A : Type} (l : List (String × A)) (k : String) (f : A → A) (d : A) :
    List (String × A) :=
  match l with
  | [] => [(k, f d)]
  | (k', a) :: rest => if k' = k then (k', f a) :: rest else (k', a) :: updateAssoc rest k f d

/-- One iteration of a dict-building loop: rows whose key is `none` are
skipped (the `continue` branches in the source); otherwise the entry for
the key is created from `dflt r` if absent and updated by `upd r`. -/
def assocStep {R A : Type} (key : R → Option String) (upd : R → A → A) (dflt : R → A)
    (acc : List (String × A)) (r : R) : List (String × A) :=
  match key r with
  | none => acc
  | some k => updateAssoc acc k (upd r) (dflt r)

/-- A dict-building loop over rows, starting from the empty dict. -/
def foldAssoc {R A : Type} (key : R → Option String) (upd : R → A → A) (dflt : R → A)
    (rows : List R) : List (String × A) :=
  rows.foldl (assocStep key upd dflt) []

theorem lookup_updateAssoc_self {A : Type} (l : List (String × A)) (k : String)
    (f : A → A) (d : A) :
    List.lookup k (updateAssoc l k f d) = some (f ((List.lookup k l).getD d)) := by
  induction l with
  | nil => simp [updateAssoc, List.lookup]
  | cons p rest ih =>
      obtain ⟨k', a⟩ := p
      by_cases h : k' = k
      · subst h
        simp [updateAssoc, List.lookup]
      · have h2 : (k == k') = false := by
          simp [beq_iff_eq]
          exact fun he => h he.symm
        simp [updateAssoc, h, List.lookup, h2, ih]

theorem lookup_updateAssoc_ne {A : Type} (l : List (String × A)) (k k' : String)
    (f : A → A) (d : A) (hne : k ≠ k') :
    List.lookup k (updateAssoc l k' f d) = List.lookup k l := by
  induction l with
  | nil =>
      have hb : (k == k') = false := by simp [beq_iff_eq, hne]
      simp [updateAssoc, List.lookup, hb]
  | cons p rest ih =>
      obtain ⟨k'', a⟩ := p
      by_cases h : k'' = k'
      · subst h
        have h2 : (k == k'') = false := by
          simp [beq_iff_eq]
          exact fun he => hne he
        simp [updateAssoc, List.lookup, h2]
      · by_cases h3 : k = k''
        · subst h3
          simp [updateAssoc, h, List.lookup]
        · have h4 : (k == k'') = false := by simp [beq_iff_eq, h3]
          simp [updateAssoc, h, List.lookup, h4, ih]

/-- Characterization of a dict-building loop from an arbitrary starting
dict: the entry for `k` folds the updates of all matching rows over the
starting value (or the default of the first matching row). -/
theorem lookup_foldl_assocStep {R A : Type} (key : R → Option String) (upd : R → A → A)
    (dflt : R → A) (rows : List R) :
    ∀ (acc : List (String × A)) (k : String),
      List.lookup k (rows.foldl (assocStep key upd dflt) acc)
        = match rows.filter (fun r => key r == some k) with
          | [] => List.lookup k acc
          | r0 :: rs => some ((r0 :: rs).foldl (fun a r => upd r a)
              ((List.lookup k acc).getD (dflt r0))) := by
  induction rows with
  | nil => intro acc k; rfl
  | cons r t ih =>
      intro acc k
      rw [List.foldl_cons, List.filter_cons]
      have hstep0 : ∀ st, assocStep key upd dflt st r
          = match key r with
            | none => st
            | some k0 => updateAssoc st k0 (upd r) (dflt r) := fun st => rfl
      cases hk : key r with
      | none =>
          have hb : ((none : Option String) == some k) = false := rfl
          rw [hb]
          simp only [Bool.false_eq_true, if_false]
          have hstep : assocStep key upd dflt acc r = acc := by rw [hstep0, hk]
          rw [hstep, ih acc k]
      | some k' =>
          have hstep : assocStep key upd dflt acc r = updateAssoc acc k' (upd r) (dflt r) := by
            rw [hstep0, hk]
          rw [hstep]
          by_cases he : k' = k
          · subst he
            have hb : ((some k' : Option String) == some k') = true := by simp
            rw [hb]
            simp only [if_true]
            rw [ih _ k']
            cases hfil : t.filter (fun r => key r == some k') with
            | nil =>
                simp only [hfil]
                rw [lookup_updateAssoc_self]
                simp
            | cons r1 rs =>
                simp only [hfil]
                rw [lookup_updateAssoc_self]
                simp
          · have hb : ((some k' : Option String) == some k) = false := by
              simp [he]
            rw [hb]
            simp only [Bool.false_eq_true, if_false]
            rw [ih _ k]
            cases hfil : t.filter (fun r => key r == some k) with
            | nil =>
                simp only [hfil]
                exact lookup_updateAssoc_ne acc k k' (upd r) (dflt r) (fun h => he h.symm)
            | cons r1 rs =>
                simp only [hfil]
                rw [lookup_updateAssoc_ne acc k k' (upd r) (dflt r) (fun h => he h.symm)]

/-- Characterization of `foldAssoc`: the entry for `k` is the fold of the
updates of the matching rows over the default of the first matching row,
or absent when no row matches. -/
theorem lookup_foldAssoc {R A : Type} (key : R → Option String) (upd : R → A → A)
    (dflt : R → A) (rows : List R) (k : String) :
    List.lookup k (foldAssoc key upd dflt rows)
      = match rows.filter (fun r => key r == some k) with
        | [] => none
        | r0 :: rs => some ((r0 :: rs).foldl (fun a r => upd r a) (dflt r0)) := by
  unfold foldAssoc
  rw [lookup_foldl_assocStep key upd dflt rows [] k]
  cases hfil : rows.filter (fun r => key r == some k) with
  | nil => rfl
  | cons r0 rs => simp [List.lookup]

theorem keys_updateAssoc {A : Type} (l : List (String × A)) (k : String) (f : A → A) (d : A) :
    (updateAssoc l k f d).map Prod.fst
      = if k ∈ l.map Prod.fst then l.map Prod.fst else l.map Prod.fst ++ [k] := by
  induction l with
  | nil => simp [updateAssoc]
  | cons p rest ih =>
      obtain ⟨k', a⟩ := p
      by_cases h : k' = k
      · subst h
        simp [updateAssoc]
      · by_cases hm : k ∈ rest.map Prod.fst
        · simp [updateAssoc, h, ih, hm, Ne.symm h]
        · simp [updateAssoc, h, ih, hm, Ne.symm h]

theorem keys_nodup_updateAssoc {A : Type} (l : List (String × A)) (k : String)
    (f : A → A) (d : A) (h : (l.map Prod.fst).Nodup) :
    ((updateAssoc l k f d).map Prod.fst).Nodup := by
  rw [keys_updateAssoc]
  by_cases hm : k ∈ l.map Prod.fst
  · simp [hm, h]
  · simp [hm]
    rw [List.nodup_append]
    exact ⟨h, List.nodup_singleton k, by simpa using fun hk => hm hk⟩

theorem keys_nodup_foldAssoc {R A : Type} (key : R → Option String) (upd : R → A → A)
    (dflt : R → A) (rows : List R) :
    ((foldAssoc key upd dflt rows).map Prod.fst).Nodup := by
  unfold foldAssoc
  suffices h : ∀ acc : List (String × A), (acc.map Prod.fst).Nodup →
      ((rows.foldl (assocStep key upd dflt) acc).map Prod.fst).Nodup by
    exact h [] (by simp)
  induction rows with
  | nil => intro acc hacc; exact hacc
  | cons r t ih =>
      intro acc hacc
      rw [List.foldl_cons]
      apply ih
      unfold assocStep
      cases key r with
      | none => exact hacc
      | some k => exact keys_nodup_updateAssoc acc k (upd r) (dflt r) hacc

theorem mem_iff_lookup {A : Type} (l : List (String × A)) (hnd : (l.map Prod.fst).Nodup)
    (k : String) (a : A) :
    (k, a) ∈ l ↔ List.lookup k l = some a := by
  induction l with
  | nil => simp [List.lookup]
  | cons p rest ih =>
      obtain ⟨k', b⟩ := p
      have hnd' : (rest.map Prod.fst).Nodup := (List.nodup_cons.mp hnd).2
      by_cases h : k = k'
      · subst h
        have hnotin : k ∉ rest.map Prod.fst := (List.nodup_cons.mp hnd).1
        constructor
        · intro hmem
          rcases List.mem_cons.mp hmem with he | hm
          · have hab : a = b := by simpa using congrArg Prod.snd he
            rw [hab]
            simp [List.lookup]
          · exact absurd (List.mem_map_of_mem Prod.fst hm) hnotin
        · intro hl
          simp [List.lookup] at hl
          simp [hl]
      · have hb : (k == k') = false := by simp [beq_iff_eq, h]
        constructor
        · intro hmem
          rcases List.mem_cons.mp hmem with he | hm
          · exact absurd (congrArg Prod.fst he) (by simpa using h)
          · simp [List.lookup, hb]
            exact (ih hnd').mp hm
        · intro hl
          simp [List.lookup, hb] at hl
          exact List.mem_cons_of_mem _ ((ih hnd').mpr hl)

/-! ### Fold projection helpers -/

/-- Project a structure-valued fold to a component-valued fold. -/
theorem foldl_proj {R A B : Type} (F : A → R → A) (g : B → R → B) (p : A → B)
    (hcomm : ∀ a r, p (F a r) = g (p a) r) (l : List R) :
    ∀ a, p (l.foldl F a) = l.foldl g (p a) := by
  induction l with
  | nil => intro a; rfl
  | cons r t ih =>
      intro a
      rw [List.foldl_cons, List.foldl_cons, ih, hcomm]

/-- A first-some-wins fold keeps the starting value, else the first `some`. -/
theorem foldl_or_first {R B : Type} (f : R → Option B) (l : List R) :
    ∀ a : Option B, l.foldl (fun acc r => acc.or (f r)) a = a.or (l.filterMap f).head? := by
  induction l with
  | nil => intro a; simp
  | cons r t ih =>
      intro a
      rw [List.foldl_cons, ih, List.filterMap_cons]
      cases hf : f r with
      | none => simp
      | some b =>
          simp only [List.head?_cons]
          cases a with
          | none => simp
          | some a0 => simp

/-- A last-some-wins fold yields the last `some`, else the starting value. -/
theorem foldl_or_last {R B : Type} (f : R → Option B) (l : List R) :
    ∀ a : Option B, l.foldl (fun acc r => (f r).or acc) a
      = ((l.reverse.filterMap f).head?).or a := by
  induction l with
  | nil => intro a; simp
  | cons r t ih =>
      intro a
      rw [List.foldl_cons, ih, List.reverse_cons, List.filterMap_append]
      cases hrev : t.reverse.filterMap f with
      | nil => cases hf : f r <;> simp [List.filterMap_cons, hf]
      | cons x xs => simp

/-- An accumulating-sum fold adds the mapped sum to the starting value. -/
theorem foldl_add_sum {R : Type} (f : R → ℚ) (l : List R) :
    ∀ a : ℚ, l.foldl (fun acc r => acc + f r) a = a + (l.map f).sum := by
  induction l with
  | nil => intro a; simp
  | cons r t ih =>
      intro a
      rw [List.foldl_cons, ih]
      simp
      ring

/-- An appending fold concatenates the mapped list to the starting value. -/
theorem foldl_append_map {R B : Type} (f : R → B) (l : List R) :
    ∀ a : List B, l.foldl (fun acc r => acc ++ [f r]) a = a ++ l.map f := by
  induction l with
  | nil => intro a; simp
  | cons r t ih =>
      intro a
      rw [List.foldl_cons, ih]
      simp

/-- A keep-latest fold yields the last mapped value, else the start. -/
theorem foldl_const_last {R B : Type} (f : R → B) (l : List R) :
    ∀ a : B, l.foldl (fun _ r => f r) a = ((l.map f).getLast?).getD a := by
  induction l with
  | nil => intro a; simp
  | cons r t ih =>
      intro a
      rw [List.foldl_cons, ih]
      cases ht : t with
      | nil => simp
      | cons x xs =>
          have : (f r :: (x :: xs).map f).getLast? = ((x :: xs).map f).getLast? := by
            apply List.getLast?_cons_cons
          simp only [List.map_cons] at this ⊢
          rw [this]
          have hne : ((x :: xs).map f) ≠ [] := by simp
          cases hlast : ((x :: xs).map f).getLast? with
          | none => exact absurd (List.getLast?_eq_none_iff.mp hlast) hne
          | some b => rfl

/-! ### The three ticker-level de-duplications (claims C3, C5, C6)

`compute_summary_stats` (lines 256-284), `compute_top_stocks_valuation`
(lines 386-411) and `compute_portfolio_table_data` (lines 1422-1467) each
aggregate rows into a dict keyed by ticker. -/

/-- Grouping key for `compute_summary_stats` / `compute_top_stocks_valuation`:
`tk = r.get("ticker", "N/A"); if tk == "N/A": continue`. -/
def keySkipNA (r : Row) : Option String :=
  if r.tickerNA = "N/A" then none else some r.tickerNA

def keySkipNAW (r : WRow) : Option String := keySkipNA r.toRow

/-- Grouping key for `_build_table` in `compute_portfolio_table_data`:
`key = tk if tk != "N/A" else r.get("name", "Unknown")`. -/
def keyTable (r : WRow) : Option String :=
  some (if r.tickerNA = "N/A" then r.name else r.tickerNA)

/-- The `pct_by_ticker` aggregate of `compute_summary_stats`. -/
structure SummaryAgg where
  combined_weight : ℚ
  name : String
  ticker : String
  managers : Finset String
  sector : Option String
  forward_pe : Option ℚ
  forward_eps_growth : Option ℚ
  dividend_yield : Option ℚ
  forward_revenue_growth : Option ℚ
  forward_ps : Option ℚ
deriving DecidableEq

def summaryAggInit : SummaryAgg :=
  { combined_weight := 0, name := "", ticker := "", managers := ∅, sector := none
    forward_pe := none, forward_eps_growth := none, dividend_yield := none
    forward_revenue_growth := none, forward_ps := none }

/-- The loop body of the `pct_by_ticker` aggregation in
`compute_summary_stats`: weight accumulates; `name`/`ticker` are overwritten
each time; `sector` is overwritten by every truthy value (`if r.get("sector")`);
the five forward metrics keep the first non-`None` value. -/
def summaryUpd (r : WRow) (d : SummaryAgg) : SummaryAgg :=
  { combined_weight := d.combined_weight + r.combined_weight
    name := r.name
    ticker := r.tickerNA
    managers := insert r.manager d.managers
    sector := (truthyStr r.sector).or d.sector
    forward_pe := d.forward_pe.or r.forward_pe
    forward_eps_growth := d.forward_eps_growth.or r.forward_eps_growth
    dividend_yield := d.dividend_yield.or r.dividend_yield
    forward_revenue_growth := d.forward_revenue_growth.or r.forward_revenue_growth
    forward_ps := d.forward_ps.or r.forward_ps }

def summaryPctByTicker (wrows : List WRow) : List (String × SummaryAgg) :=
  foldAssoc keySkipNAW summaryUpd (fun _ => summaryAggInit) wrows

/-- The `by_ticker` aggregate of `compute_top_stocks_valuation`. -/
structure TopAgg where
  combined_weight : ℚ
  name : String
  ticker : String
  forward_pe : Option ℚ
  forward_eps_growth : Option ℚ
  dividend_yield : Option ℚ
  sector : Option String
  forward_revenue_growth : Option ℚ
  forward_ps : Option ℚ
deriving DecidableEq

def topAggInit : TopAgg :=
  { combined_weight := 0, name := "", ticker := "", forward_pe := none
    forward_eps_growth := none, dividend_yield := none, sector := none
    forward_revenue_growth := none, forward_ps := none }

/-- The loop body of the `by_ticker` aggregation in
`compute_top_stocks_valuation`: weight accumulates; `name`/`ticker` are
overwritten; every enrichment field keeps the first non-`None` value
(`sector` additionally requires truthiness: `if d["sector"] is None and
r.get("sector")`). -/
def topUpd (r : WRow) (d : TopAgg) : TopAgg :=
  { combined_weight := d.combined_weight + r.combined_weight
    name := r.name
    ticker := r.tickerNA
    forward_pe := d.forward_pe.or r.forward_pe
    forward_eps_growth := d.forward_eps_growth.or r.forward_eps_growth
    dividend_yield := d.dividend_yield.or r.dividend_yield
    sector := d.sector.or (truthyStr r.sector)
    forward_revenue_growth := d.forward_revenue_growth.or r.forward_revenue_growth
    forward_ps := d.forward_ps.or r.forward_ps }

def topByTicker (wrows : List WRow) : List (String × TopAgg) :=
  foldAssoc keySkipNAW topUpd (fun _ => topAggInit) wrows

/-- The `by_ticker` aggregate of `_build_table` in
`compute_portfolio_table_data`. -/
structure TableAgg where
  ticker : String
  name : String
  sector : Option String
  industry : Option String
  pct : ℚ
  filing_price : Option ℚ
  current_price : Option ℚ
  qtd_return : Option ℚ
  forward_pe : Option ℚ
  forward_eps_growth : Option ℚ
  filing_reported_eps : Option ℚ
  eps_beat_dollars : Option ℚ
  eps_beat_pct : Option ℚ
  monthly_returns : Option (List MonthRet)
deriving DecidableEq

/-- Creation of a `by_ticker` entry in `_build_table`: `ticker` and `name`
come from the creating row, all aggregated fields start empty. -/
def tableDflt (r : WRow) : TableAgg :=
  { ticker := r.tickerNA, name := r.name, sector := none, industry := none
    pct := 0, filing_price := none, current_price := none, qtd_return := none
    forward_pe := none, forward_eps_growth := none, filing_reported_eps := none
    eps_beat_dollars := none, eps_beat_pct := none, monthly_returns := none }

/-- The loop body of `_build_table`: `pct` accumulates either
`combined_weight` or `pct_of_portfolio`; `sector`/`industry`/`monthly_returns`
keep the first truthy value, every other field the first non-`None` value. -/
def tableUpd (useCombined : Bool) (r : WRow) (d : TableAgg) : TableAgg :=
  { d with
    pct := d.pct + (if useCombined then r.combined_weight else r.pct_of_portfolio)
    sector := d.sector.or (truthyStr r.sector)
    industry := d.industry.or (truthyStr r.industry)
    monthly_returns := d.monthly_returns.or (truthyList r.monthly_returns)
    filing_price := d.filing_price.or r.filing_price_qtr_end
    current_price := d.current_price.or r.current_price
    qtd_return := d.qtd_return.or r.qtd_return_pct
    forward_pe := d.forward_pe.or r.forward_pe
    forward_eps_growth := d.forward_eps_growth.or r.forward_eps_growth
    filing_reported_eps := d.filing_reported_eps.or r.filing_reported_eps
    eps_beat_dollars := d.eps_beat_dollars.or r.filing_eps_beat_dollars
    eps_beat_pct := d.eps_beat_pct.or r.filing_eps_beat_pct }

def tableByTicker (useCombined : Bool) (wrows : List WRow) : List (String × TableAgg) :=
  foldAssoc keyTable (tableUpd useCombined) tableDflt wrows

/-- Key presence in a dict-building loop. -/
theorem lookup_foldAssoc_isSome {R A : Type} (key : R → Option String) (upd : R → A → A)
    (dflt : R → A) (rows : List R) (k : String) :
    (List.lookup k (foldAssoc key upd dflt rows)).isSome ↔ ∃ r ∈ rows, key r = some k := by
  rw [lookup_foldAssoc]
  cases hfil : rows.filter (fun r => key r == some k) with
  | nil =>
      simp only [Option.isSome_none, Bool.false_eq_true, false_iff]
      rintro ⟨r, hr, hkr⟩
      have : r ∈ rows.filter (fun r => key r == some k) := by
        apply List.mem_filter.mpr
        exact ⟨hr, by simp [hkr]⟩
      rw [hfil] at this
      cases this
  | cons r0 rs =>
      simp only [Option.isSome_some, true_iff]
      have : r0 ∈ rows.filter (fun r => key r == some k) := by rw [hfil]; simp
      have h2 := List.mem_filter.mp this
      exact ⟨r0, h2.1, by simpa using h2.2⟩

/-- Field-by-field characterization of a `_build_table` aggregate: the pct
column sums, and every other field keeps the first non-null (for
`sector`/`industry`/`monthly_returns`: first truthy) value in row order. -/
theorem tableAgg_of_lookup (b : Bool) (wrows : List WRow) (k : String) (agg : TableAgg)
    (h : List.lookup k (tableByTicker b wrows) = some agg) :
    agg.pct = ((wrows.filter (fun r => keyTable r == some k)).map
        (fun r => if b then r.combined_weight else r.pct_of_portfolio)).sum
    ∧ agg.sector = ((wrows.filter (fun r => keyTable r == some k)).filterMap
        (fun r => truthyStr r.sector)).head?
    ∧ agg.industry = ((wrows.filter (fun r => keyTable r == some k)).filterMap
        (fun r => truthyStr r.industry)).head?
    ∧ agg.forward_pe = ((wrows.filter (fun r => keyTable r == some k)).filterMap
        (fun r => r.forward_pe)).head?
    ∧ agg.forward_eps_growth = ((wrows.filter (fun r => keyTable r == some k)).filterMap
        (fun r => r.forward_eps_growth)).head?
    ∧ agg.qtd_return = ((wrows.filter (fun r => keyTable r == some k)).filterMap
        (fun r => r.qtd_return_pct)).head?
    ∧ agg.filing_price = ((wrows.filter (fun r => keyTable r == some k)).filterMap
        (fun r => r.filing_price_qtr_end)).head?
    ∧ agg.current_price = ((wrows.filter (fun r => keyTable r == some k)).filterMap
        (fun r => r.current_price)).head?
    ∧ agg.filing_reported_eps = ((wrows.filter (fun r => keyTable r == some k)).filterMap
        (fun r => r.filing_reported_eps)).head?
    ∧ agg.eps_beat_dollars = ((wrows.filter (fun r => keyTable r == some k)).filterMap
        (fun r => r.filing_eps_beat_dollars)).head?
    ∧ agg.eps_beat_pct = ((wrows.filter (fun r => keyTable r == some k)).filterMap
        (fun r => r.filing_eps_beat_pct)).head?
    ∧ agg.monthly_returns = ((wrows.filter (fun r => keyTable r == some k)).filterMap
        (fun r => truthyList r.monthly_returns)).head? := by
  unfold tableByTicker at h
  rw [lookup_foldAssoc] at h
  cases hfil : wrows.filter (fun r => keyTable r == some k) with
  | nil => rw [hfil] at h; cases h
  | cons r0 rs =>
      rw [hfil] at h
      have hagg : (r0 :: rs).foldl (fun a r => tableUpd b r a) (tableDflt r0) = agg :=
        Option.some.inj h
      refine ⟨?_, ?_, ?_, ?_, ?_, ?_, ?_, ?_, ?_, ?_, ?_, ?_⟩ <;> rw [← hagg]
      · rw [foldl_proj _ (fun p r => p + (if b then r.combined_weight else r.pct_of_portfolio))
          TableAgg.pct (fun a r => rfl), foldl_add_sum]
        simp [tableDflt]
      · rw [foldl_proj _ (fun o r => o.or (truthyStr r.sector))
          TableAgg.sector (fun a r => rfl), foldl_or_first]
        simp [tableDflt]
      · rw [foldl_proj _ (fun o r => o.or (truthyStr r.industry))
          TableAgg.industry (fun a r => rfl), foldl_or_first]
        simp [tableDflt]
      · rw [foldl_proj _ (fun o r => o.or r.forward_pe)
          TableAgg.forward_pe (fun a r => rfl), foldl_or_first]
        simp [tableDflt]
      · rw [foldl_proj _ (fun o r => o.or r.forward_eps_growth)
          TableAgg.forward_eps_growth (fun a r => rfl), foldl_or_first]
        simp [tableDflt]
      · rw [foldl_proj _ (fun o r => o.or r.qtd_return_pct)
          TableAgg.qtd_return (fun a r => rfl), foldl_or_first]
        simp [tableDflt]
      · rw [foldl_proj _ (fun o r => o.or r.filing_price_qtr_end)
          TableAgg.filing_price (fun a r => rfl), foldl_or_first]
        simp [tableDflt]
      · rw [foldl_proj _ (fun o r => o.or r.current_price)
          TableAgg.current_price (fun a r => rfl), foldl_or_first]
        simp [tableDflt]
      · rw [foldl_proj _ (fun o r => o.or r.filing_reported_eps)
          TableAgg.filing_reported_eps (fun a r => rfl), foldl_or_first]
        simp [tableDflt]
      · rw [foldl_proj _ (fun o r => o.or r.filing_eps_beat_dollars)
          TableAgg.eps_beat_dollars (fun a r => rfl), foldl_or_first]
        simp [tableDflt]
      · rw [foldl_proj _ (fun o r => o.or r.filing_eps_beat_pct)
          TableAgg.eps_beat_pct (fun a r => rfl), foldl_or_first]
        simp [tableDflt]
      · rw [foldl_proj _ (fun o r => o.or (truthyList r.monthly_returns))
          TableAgg.monthly_returns (fun a r => rfl), foldl_or_first]
        simp [tableDflt]

/-- Field-by-field characterization of a `compute_summary_stats` aggregate:
the weight sums, the forward metrics keep the first non-null value, but
`sector` keeps the LAST truthy value in row order. -/
theorem summaryAgg_of_lookup (wrows : List WRow) (k : String) (agg : SummaryAgg)
    (h : List.lookup k (summaryPctByTicker wrows) = some agg) :
    agg.combined_weight = ((wrows.filter (fun r => keySkipNAW r == some k)).map
        (fun r => r.combined_weight)).sum
    ∧ agg.sector = (((wrows.filter (fun r => keySkipNAW r == some k)).reverse.filterMap
        (fun r => truthyStr r.sector)).head?)
    ∧ agg.forward_pe = ((wrows.filter (fun r => keySkipNAW r == some k)).filterMap
        (fun r => r.forward_pe)).head?
    ∧ agg.forward_eps_growth = ((wrows.filter (fun r => keySkipNAW r == some k)).filterMap
        (fun r => r.forward_eps_growth)).head?
    ∧ agg.dividend_yield = ((wrows.filter (fun r => keySkipNAW r == some k)).filterMap
        (fun r => r.dividend_yield)).head?
    ∧ agg.forward_revenue_growth = ((wrows.filter (fun r => keySkipNAW r == some k)).filterMap
        (fun r => r.forward_revenue_growth)).head?
    ∧ agg.forward_ps = ((wrows.filter (fun r => keySkipNAW r == some k)).filterMap
        (fun r => r.forward_ps)).head? := by
  unfold summaryPctByTicker at h
  rw [lookup_foldAssoc] at h
  cases hfil : wrows.filter (fun r => keySkipNAW r == some k) with
  | nil => rw [hfil] at h; cases h
  | cons r0 rs =>
      rw [hfil] at h
      have hagg : (r0 :: rs).foldl (fun a r => summaryUpd r a) summaryAggInit = agg :=
        Option.some.inj h
      refine ⟨?_, ?_, ?_, ?_, ?_, ?_, ?_⟩ <;> rw [← hagg]
      · rw [foldl_proj _ (fun p r => p + r.combined_weight)
          SummaryAgg.combined_weight (fun a r => rfl), foldl_add_sum]
        simp [summaryAggInit]
      · rw [foldl_proj _ (fun o r => (truthyStr r.sector).or o)
          SummaryAgg.sector (fun a r => rfl), foldl_or_last]
        simp [summaryAggInit]
      · rw [foldl_proj _ (fun o r => o.or r.forward_pe)
          SummaryAgg.forward_pe (fun a r => rfl), foldl_or_first]
        simp [summaryAggInit]
      · rw [foldl_proj _ (fun o r => o.or r.forward_eps_growth)
          SummaryAgg.forward_eps_growth (fun a r => rfl), foldl_or_first]
        simp [summaryAggInit]
      · rw [foldl_proj _ (fun o r => o.or r.dividend_yield)
          SummaryAgg.dividend_yield (fun a r => rfl), foldl_or_first]
        simp [summaryAggInit]
      · rw [foldl_proj _ (fun o r => o.or r.forward_revenue_growth)
          SummaryAgg.forward_revenue_growth (fun a r => rfl), foldl_or_first]
        simp [summaryAggInit]
      · rw [foldl_proj _ (fun o r => o.or r.forward_ps)
          SummaryAgg.forward_ps (fun a r => rfl), foldl_or_first]
        simp [summaryAggInit]

/-- Field-by-field characterization of a `compute_top_stocks_valuation`
aggregate: the weight sums and every enrichment field keeps the first
non-null (for `sector`: first truthy) value in row order. -/
theorem topAgg_of_lookup (wrows : List WRow) (k : String) (agg : TopAgg)
    (h : List.lookup k (topByTicker wrows) = some agg) :
    agg.combined_weight = ((wrows.filter (fun r => keySkipNAW r == some k)).map
        (fun r => r.combined_weight)).sum
    ∧ agg.sector = ((wrows.filter (fun r => keySkipNAW r == some k)).filterMap
        (fun r => truthyStr r.sector)).head?
    ∧ agg.forward_pe = ((wrows.filter (fun r => keySkipNAW r == some k)).filterMap
        (fun r => r.forward_pe)).head?
    ∧ agg.forward_eps_growth = ((wrows.filter (fun r => keySkipNAW r == some k)).filterMap
        (fun r => r.forward_eps_growth)).head?
    ∧ agg.dividend_yield = ((wrows.filter (fun r => keySkipNAW r == some k)).filterMap
        (fun r => r.dividend_yield)).head?
    ∧ agg.forward_revenue_growth = ((wrows.filter (fun r => keySkipNAW r == some k)).filterMap
        (fun r => r.forward_revenue_growth)).head?
    ∧ agg.forward_ps = ((wrows.filter (fun r => keySkipNAW r == some k)).filterMap
        (fun r => r.forward_ps)).head? := by
  unfold topByTicker at h
  rw [lookup_foldAssoc] at h
  cases hfil : wrows.filter (fun r => keySkipNAW r == some k) with
  | nil => rw [hfil] at h; cases h
  | cons r0 rs =>
      rw [hfil] at h
      have hagg : (r0 :: rs).foldl (fun a r => topUpd r a) topAggInit = agg :=
        Option.some.inj h
      refine ⟨?_, ?_, ?_, ?_, ?_, ?_, ?_⟩ <;> rw [← hagg]
      · rw [foldl_proj _ (fun p r => p + r.combined_weight)
          TopAgg.combined_weight (fun a r => rfl), foldl_add_sum]
        simp [topAggInit]
      · rw [foldl_proj _ (fun o r => o.or (truthyStr r.sector))
          TopAgg.sector (fun a r => rfl), foldl_or_first]
        simp [topAggInit]
      · rw [foldl_proj _ (fun o r => o.or r.forward_pe)
          TopAgg.forward_pe (fun a r => rfl), foldl_or_first]
        simp [topAggInit]
      · rw [foldl_proj _ (fun o r => o.or r.forward_eps_growth)
          TopAgg.forward_eps_growth (fun a r => rfl), foldl_or_first]
        simp [topAggInit]
      · rw [foldl_proj _ (fun o r => o.or r.dividend_yield)
          TopAgg.dividend_yield (fun a r => rfl), foldl_or_first]
        simp [topAggInit]
      · rw [foldl_proj _ (fun o r => o.or r.forward_revenue_growth)
          TopAgg.forward_revenue_growth (fun a r => rfl), foldl_or_first]
        simp [topAggInit]
      · rw [foldl_proj _ (fun o r => o.or r.forward_ps)
          TopAgg.forward_ps (fun a r => rfl), foldl_or_first]
        simp [topAggInit]

/-- Claim C3 (amended): in `compute_portfolio_table_data`, rows are grouped
by ticker — or by name when the ticker is the unknown sentinel — summing the
weight column, and every other enrichment field keeps the first non-null
(for sector/industry: first truthy) value encountered during iteration. In
`compute_summary_stats` and `compute_top_stocks_valuation`, rows with the
unknown-ticker sentinel are skipped entirely rather than grouped by name;
`compute_top_stocks_valuation` keeps the first non-null value for every
enrichment field, while `compute_summary_stats` keeps the first non-null
forward metrics but the LAST truthy sector, not the first. -/
theorem dedup_first_wins_policy :
    (∀ (b : Bool) (wrows : List WRow) (k : String),
      (List.lookup k (tableByTicker b wrows)).isSome
        ↔ ∃ r ∈ wrows, (if r.tickerNA = "N/A" then r.name else r.tickerNA) = k)
    ∧ (∀ (b : Bool) (wrows : List WRow) (k : String) (agg : TableAgg),
      List.lookup k (tableByTicker b wrows) = some agg →
        agg.pct = ((wrows.filter (fun r => keyTable r == some k)).map
            (fun r => if b then r.combined_weight else r.pct_of_portfolio)).sum
        ∧ agg.sector = ((wrows.filter (fun r => keyTable r == some k)).filterMap
            (fun r => truthyStr r.sector)).head?
        ∧ agg.forward_pe = ((wrows.filter (fun r => keyTable r == some k)).filterMap
            (fun r => r.forward_pe)).head?
        ∧ agg.forward_eps_growth = ((wrows.filter (fun r => keyTable r == some k)).filterMap
            (fun r => r.forward_eps_growth)).head?
        ∧ agg.qtd_return = ((wrows.filter (fun r => keyTable r == some k)).filterMap
            (fun r => r.qtd_return_pct)).head?)
    ∧ (∀ (wrows : List WRow) (k : String),
      (List.lookup k (summaryPctByTicker wrows)).isSome
        ↔ ∃ r ∈ wrows, r.tickerNA = k ∧ k ≠ "N/A")
    ∧ (∀ (wrows : List WRow) (k : String) (agg : SummaryAgg),
      List.lookup k (summaryPctByTicker wrows) = some agg →
        agg.sector = (((wrows.filter (fun r => keySkipNAW r == some k)).reverse.filterMap
            (fun r => truthyStr r.sector)).head?)
        ∧ agg.forward_pe = ((wrows.filter (fun r => keySkipNAW r == some k)).filterMap
            (fun r => r.forward_pe)).head?
        ∧ agg.dividend_yield = ((wrows.filter (fun r => keySkipNAW r == some k)).filterMap
            (fun r => r.dividend_yield)).head?)
    ∧ (∀ (wrows : List WRow) (k : String),
      (List.lookup k (topByTicker wrows)).isSome
        ↔ ∃ r ∈ wrows, r.tickerNA = k ∧ k ≠ "N/A")
    ∧ (∀ (wrows : List WRow) (k : String) (agg : TopAgg),
      List.lookup k (topByTicker wrows) = some agg →
        agg.sector = ((wrows.filter (fun r => keySkipNAW r == some k)).filterMap
            (fun r => truthyStr r.sector)).head?
        ∧ agg.forward_pe = ((wrows.filter (fun r => keySkipNAW r == some k)).filterMap
            (fun r => r.forward_pe)).head?
        ∧ agg.forward_eps_growth = ((wrows.filter (fun r => keySkipNAW r == some k)).filterMap
            (fun r => r.forward_eps_growth)).head?) := by
  have hkeyT : ∀ (r : WRow) (k : String),
      keyTable r = some k ↔ (if r.tickerNA = "N/A" then r.name else r.tickerNA) = k := by
    intro r k
    unfold keyTable
    simp
  have hkeyS : ∀ (r : WRow) (k : String),
      keySkipNAW r = some k ↔ (r.tickerNA = k ∧ k ≠ "N/A") := by
    intro r k
    unfold keySkipNAW keySkipNA
    by_cases h : r.tickerNA = "N/A"
    · rw [if_pos h]
      constructor
      · intro hc; simp at hc
      · rintro ⟨he, hk⟩
        rw [h] at he
        exact absurd he.symm hk
    · rw [if_neg h]
      constructor
      · intro hc
        have ht := Option.some.inj hc
        refine ⟨ht, fun hk => h ?_⟩
        rw [ht, hk]
      · rintro ⟨he, hk⟩
        rw [he]
  refine ⟨?_, ?_, ?_, ?_, ?_, ?_⟩
  · intro b wrows k
    unfold tableByTicker
    rw [lookup_foldAssoc_isSome]
    constructor
    · rintro ⟨r, hr, hk⟩
      exact ⟨r, hr, (hkeyT r k).mp hk⟩
    · rintro ⟨r, hr, hk⟩
      exact ⟨r, hr, (hkeyT r k).mpr hk⟩
  · intro b wrows k agg h
    have := tableAgg_of_lookup b wrows k agg h
    exact ⟨this.1, this.2.1, this.2.2.2.1, this.2.2.2.2.1, this.2.2.2.2.2.1⟩
  · intro wrows k
    unfold summaryPctByTicker
    rw [lookup_foldAssoc_isSome]
    constructor
    · rintro ⟨r, hr, hk⟩
      exact ⟨r, hr, (hkeyS r k).mp hk⟩
    · rintro ⟨r, hr, hk⟩
      exact ⟨r, hr, (hkeyS r k).mpr hk⟩
  · intro wrows k agg h
    have := summaryAgg_of_lookup wrows k agg h
    exact ⟨this.2.1, this.2.2.1, this.2.2.2.2.1⟩
  · intro wrows k
    unfold topByTicker
    rw [lookup_foldAssoc_isSome]
    constructor
    · rintro ⟨r, hr, hk⟩
      exact ⟨r, hr, (hkeyS r k).mp hk⟩
    · rintro ⟨r, hr, hk⟩
      exact ⟨r, hr, (hkeyS r k).mpr hk⟩
  · intro wrows k agg h
    have := topAgg_of_lookup wrows k agg h
    exact ⟨this.2.1, this.2.2.1, this.2.2.2.1⟩

/-- Two weighted rows for the same ticker with different sectors, first
`Technology`, then `Energy`. -/
def cxW1 : WRow :=
  { manager := "A", ticker := some "T", name := "T Corp", value_usd := 10
    pct_of_portfolio := 1, rank := 1, sector := some "Technology", industry := none
    forward_pe := some 10, forward_eps_growth := none, dividend_yield := none
    forward_revenue_growth := none, forward_ps := none, combined_weight := 1 }

def cxW2 : WRow :=
  { manager := "B", ticker := some "T", name := "T Corp", value_usd := 20
    pct_of_portfolio := 2, rank := 2, sector := some "Energy", industry := none
    forward_pe := some 20, forward_eps_growth := none, dividend_yield := none
    forward_revenue_growth := none, forward_ps := none, combined_weight := 2 }

/-- Counterexample to claim C3 as stated: in `compute_summary_stats`'s
de-duplication the sector kept for ticker `T` is the LATER value `Energy`,
not the first non-null value `Technology` encountered during iteration. -/
theorem dedup_first_wins_policy_counterexample :
    (List.lookup "T" (summaryPctByTicker [cxW1, cxW2])).map SummaryAgg.sector
      = some (some "Energy")
    ∧ (([cxW1, cxW2].filterMap (fun r => truthyStr r.sector)).head? = some "Technology")
    ∧ ("Energy" : String) ≠ "Technology" := by
  refine ⟨?_, by decide, by decide⟩
  have h := lookup_foldAssoc keySkipNAW summaryUpd (fun _ => summaryAggInit) [cxW1, cxW2] "T"
  have hfil : [cxW1, cxW2].filter (fun r => keySkipNAW r == some "T") = [cxW1, cxW2] := by
    decide
  rw [hfil] at h
  unfold summaryPctByTicker
  rw [h]
  decide

/-- Witness for the amended claim C3: applying the theorem to the same
concrete rows, `compute_summary_stats` keeps the FIRST non-null forward P/E
(10, from the first row) for ticker `T`. -/
theorem dedup_first_wins_policy_witness :
    (List.lookup "T" (summaryPctByTicker [cxW1, cxW2])).map SummaryAgg.forward_pe
      = some (some 10) := by
  have hpres := dedup_first_wins_policy.2.2.1 [cxW1, cxW2] "T"
  have hsome : (List.lookup "T" (summaryPctByTicker [cxW1, cxW2])).isSome := by
    rw [hpres]
    exact ⟨cxW1, by simp, by decide, by decide⟩
  obtain ⟨agg, hagg⟩ := Option.isSome_iff_exists.mp hsome
  have hfields := (dedup_first_wins_policy.2.2.2.1 [cxW1, cxW2] "T" agg hagg).2.1
  have hfil : [cxW1, cxW2].filter (fun r => keySkipNAW r == some "T") = [cxW1, cxW2] := by
    decide
  rw [hfil] at hfields
  have hpe : ([cxW1, cxW2].filterMap (fun r => r.forward_pe)).head? = some 10 := by decide
  rw [hpe] at hfields
  rw [hagg]
  simp [hfields]

/-! ### `compute_overlap` (analysis.py lines 484-528, claim C4) -/

/-- The `ticker_data` aggregate of `compute_overlap`: managers and
percentages are appended per ROW (not per distinct manager); sector and
industry keep the last truthy value. -/
structure OverlapAgg where
  managers : List String
  total_value : ℚ
  pcts : List ℚ
  name : String
  ticker : String
  sector : Option String
  industry : Option String
deriving DecidableEq

def overlapAggInit : OverlapAgg :=
  { managers := [], total_value := 0, pcts := [], name := "", ticker := ""
    sector := none, industry := none }

def overlapUpd (r : Row) (d : OverlapAgg) : OverlapAgg :=
  { managers := d.managers ++ [r.manager]
    total_value := d.total_value + r.value_usd
    pcts := d.pcts ++ [r.pct_of_portfolio]
    name := r.name
    ticker := r.tickerNA
    sector := (truthyStr r.sector).or d.sector
    industry := (truthyStr r.industry).or d.industry }

def overlapByTicker (rows : List Row) : List (String × OverlapAgg) :=
  foldAssoc keySkipNA overlapUpd (fun _ => overlapAggInit) rows

/-- One element of `compute_overlap`'s result list. -/
structure OverlapEntry where
  ticker : String
  name : String
  managers : List String
  manager_count : ℕ
  total_value : ℚ
  avg_pct : ℚ
  sector : Option String
  industry : Option String
deriving DecidableEq

/-- Formatting of an emitted overlap entry: `sorted(set(managers))`,
`len(set(managers))`, and `round(sum(pcts)/len(pcts), 2)`. -/
def mkOverlapEntry (d : OverlapAgg) : OverlapEntry :=
  { ticker := d.ticker, name := d.name
    managers := List.insertionSort (fun a b => a ≤ b) d.managers.dedup
    manager_count := d.managers.dedup.length
    total_value := d.total_value
    avg_pct := roundTo 2 (d.pcts.sum / d.pcts.length)
    sector := d.sector, industry := d.industry }

/-- The sort key `(-manager_count, -total_value)` of `compute_overlap`,
read as a "comes no later than" relation. -/
def overlapOrder (a b : OverlapEntry) : Prop :=
  b.manager_count < a.manager_count
    ∨ (a.manager_count = b.manager_count ∧ b.total_value ≤ a.total_value)

instance : DecidableRel overlapOrder := fun a b => by
  unfold overlapOrder
  infer_instance

instance : IsTotal OverlapEntry overlapOrder := by
  constructor
  intro a b
  unfold overlapOrder
  rcases lt_trichotomy a.manager_count b.manager_count with h | h | h
  · exact Or.inr (Or.inl h)
  · rcases le_total b.total_value a.total_value with h2 | h2
    · exact Or.inl (Or.inr ⟨h, h2⟩)
    · exact Or.inr (Or.inr ⟨h.symm, h2⟩)
  · exact Or.inl (Or.inl h)

instance : IsTrans OverlapEntry overlapOrder := by
  constructor
  intro a b c hab hbc
  unfold overlapOrder at hab hbc ⊢
  rcases hab with h1 | ⟨h1, h1v⟩ <;> rcases hbc with h2 | ⟨h2, h2v⟩
  · exact Or.inl (h2.trans h1)
  · exact Or.inl (by rw [h2] at h1; exact h1)
  · exact Or.inl (by rw [h1]; exact h2)
  · exact Or.inr ⟨h1.trans h2, h2v.trans h1v⟩

/-- `compute_overlap`: emit the tickers matched by at least 2 ROWS
(`len(d["managers"]) >= 2`), formatted, sorted by
`(-manager_count, -total_value)`. -/
def overlapResults (rows : List Row) : List OverlapEntry :=
  List.insertionSort overlapOrder
    ((((overlapByTicker rows).map Prod.snd).filter
        (fun d => decide (2 ≤ d.managers.length))).map mkOverlapEntry)

theorem keySkipNA_eq_some (r : Row) (k : String) :
    keySkipNA r = some k ↔ (r.tickerNA = k ∧ k ≠ "N/A") := by
  unfold keySkipNA
  by_cases h : r.tickerNA = "N/A"
  · rw [if_pos h]
    constructor
    · intro hc; simp at hc
    · rintro ⟨he, hk⟩
      rw [h] at he
      exact absurd he.symm hk
  · rw [if_neg h]
    constructor
    · intro hc
      have ht := Option.some.inj hc
      refine ⟨ht, fun hk => h ?_⟩
      rw [ht, hk]
    · rintro ⟨he, hk⟩
      rw [he]

theorem filter_keySkipNA_eq (rows : List Row) (t : String) (ht : t ≠ "N/A") :
    rows.filter (fun r => keySkipNA r == some t)
      = rows.filter (fun r => r.tickerNA == t) := by
  apply List.filter_congr
  intro r _
  by_cases h : r.tickerNA = t
  · have : keySkipNA r = some t := (keySkipNA_eq_some r t).mpr ⟨h, ht⟩
    simp [this, h]
  · have : keySkipNA r ≠ some t := fun hc => h ((keySkipNA_eq_some r t).mp hc).1
    simp [this, h]

theorem getLastD_of_all_eq {B : Type} (l : List B) (k d : B) (hne : l ≠ [])
    (hall : ∀ x ∈ l, x = k) : (l.getLast?).getD d = k := by
  cases hl : l.getLast? with
  | none => exact absurd (List.getLast?_eq_none_iff.mp hl) hne
  | some b =>
      obtain ⟨hne2, hb⟩ := List.mem_getLast?_eq_getLast hl
      have hbl : b ∈ l := by rw [hb]; exact List.getLast_mem hne2
      simp [hall b hbl]

theorem mem_values_iff_lookup {A : Type} (l : List (String × A))
    (hnd : (l.map Prod.fst).Nodup) (a : A) :
    a ∈ l.map Prod.snd ↔ ∃ k, List.lookup k l = some a := by
  constructor
  · intro h
    obtain ⟨p, hp, he⟩ := List.mem_map.mp h
    refine ⟨p.1, (mem_iff_lookup l hnd p.1 a).mp ?_⟩
    obtain ⟨k, v⟩ := p
    simp only at he
    rw [← he]
    exact hp
  · rintro ⟨k, hk⟩
    exact List.mem_map.mpr ⟨(k, a), (mem_iff_lookup l hnd k a).mpr hk, rfl⟩

/-- Field-by-field characterization of a `compute_overlap` aggregate. -/
theorem overlapAgg_of_lookup (rows : List Row) (k : String) (agg : OverlapAgg)
    (h : List.lookup k (overlapByTicker rows) = some agg) :
    agg.ticker = k
    ∧ agg.managers = (rows.filter (fun r => keySkipNA r == some k)).map Row.manager
    ∧ agg.pcts = (rows.filter (fun r => keySkipNA r == some k)).map Row.pct_of_portfolio
    ∧ agg.total_value = ((rows.filter (fun r => keySkipNA r == some k)).map Row.value_usd).sum
    ∧ rows.filter (fun r => keySkipNA r == some k) ≠ []
    ∧ k ≠ "N/A" := by
  unfold overlapByTicker at h
  rw [lookup_foldAssoc] at h
  cases hfil : rows.filter (fun r => keySkipNA r == some k) with
  | nil => rw [hfil] at h; cases h
  | cons r0 rs =>
      rw [hfil] at h
      have hagg : (r0 :: rs).foldl (fun a r => overlapUpd r a) overlapAggInit = agg :=
        Option.some.inj h
      have hmem : ∀ r ∈ r0 :: rs, keySkipNA r = some k := by
        intro r hr
        have : r ∈ rows.filter (fun r => keySkipNA r == some k) := by rw [hfil]; exact hr
        have := (List.mem_filter.mp this).2
        simpa using this
      have hkNA : k ≠ "N/A" :=
        ((keySkipNA_eq_some r0 k).mp (hmem r0 (List.mem_cons_self r0 rs))).2
      refine ⟨?_, ?_, ?_, ?_, by simp, hkNA⟩
      · rw [← hagg, foldl_proj _ (fun s r => r.tickerNA) OverlapAgg.ticker
          (fun a r => rfl), foldl_const_last]
        apply getLastD_of_all_eq
        · simp
        · intro x hx
          obtain ⟨r, hr, he⟩ := List.mem_map.mp hx
          rw [← he]
          exact ((keySkipNA_eq_some r k).mp (hmem r hr)).1
      · rw [← hagg, foldl_proj _ (fun ms r => ms ++ [r.manager]) OverlapAgg.managers
          (fun a r => rfl), foldl_append_map]
        simp [overlapAggInit]
      · rw [← hagg, foldl_proj _ (fun ps r => ps ++ [r.pct_of_portfolio]) OverlapAgg.pcts
          (fun a r => rfl), foldl_append_map]
        simp [overlapAggInit]
      · rw [← hagg, foldl_proj _ (fun v r => v + r.value_usd) OverlapAgg.total_value
          (fun a r => rfl), foldl_add_sum]
        simp [overlapAggInit]

/-- Claim C4 (amended): `compute_overlap` emits a ticker if and only if it is
matched by at least 2 ROWS — so a ticker held by a single manager through two
rows DOES appear, with `manager_count` 1 — with `avg_pct` the arithmetic mean
of `pct_of_portfolio` over the matching rows rounded to 2 decimals,
`manager_count` the number of distinct holding managers, `total_value` the
sum of the matching rows' values, and results sorted by
`(-manager_count, -total_value)`. -/
theorem compute_overlap_correct (rows : List Row) (t : String) :
    ((∃ e ∈ overlapResults rows, e.ticker = t)
      ↔ (t ≠ "N/A" ∧ 2 ≤ (rows.filter (fun r => r.tickerNA == t)).length))
    ∧ (∀ e ∈ overlapResults rows,
        e.manager_count
          = (((rows.filter (fun r => r.tickerNA == e.ticker)).map Row.manager).dedup).length
        ∧ e.avg_pct = roundTo 2
            (((rows.filter (fun r => r.tickerNA == e.ticker)).map Row.pct_of_portfolio).sum
              / ((rows.filter (fun r => r.tickerNA == e.ticker)).length : ℚ))
        ∧ e.total_value
          = ((rows.filter (fun r => r.tickerNA == e.ticker)).map Row.value_usd).sum)
    ∧ (overlapResults rows).Pairwise overlapOrder := by
  have hnd := keys_nodup_foldAssoc keySkipNA overlapUpd (fun _ => overlapAggInit) rows
  have hperm := List.perm_insertionSort overlapOrder
    ((((overlapByTicker rows).map Prod.snd).filter
        (fun d => decide (2 ≤ d.managers.length))).map mkOverlapEntry)
  have hmem_pre : ∀ e, e ∈ overlapResults rows ↔
      ∃ d, (∃ k, List.lookup k (overlapByTicker rows) = some d)
        ∧ 2 ≤ d.managers.length ∧ mkOverlapEntry d = e := by
    intro e
    unfold overlapResults
    rw [hperm.mem_iff, List.mem_map]
    constructor
    · rintro ⟨d, hd, he⟩
      have := List.mem_filter.mp hd
      refine ⟨d, ?_, by simpa using this.2, he⟩
      exact (mem_values_iff_lookup (overlapByTicker rows) hnd d).mp this.1
    · rintro ⟨d, hk, h2, he⟩
      refine ⟨d, List.mem_filter.mpr ⟨?_, by simpa using h2⟩, he⟩
      exact (mem_values_iff_lookup (overlapByTicker rows) hnd d).mpr hk
  refine ⟨?_, ?_, ?_⟩
  · constructor
    · rintro ⟨e, he, ht⟩
      obtain ⟨d, ⟨k, hk⟩, h2, hde⟩ := (hmem_pre e).mp he
      obtain ⟨htick, hmgr, _, _, _, hkNA⟩ := overlapAgg_of_lookup rows k d hk
      have het : e.ticker = d.ticker := by rw [← hde]; rfl
      have hkt : k = t := by rw [← ht, het, htick]
      subst hkt
      refine ⟨hkNA, ?_⟩
      rw [← filter_keySkipNA_eq rows k hkNA]
      calc 2 ≤ d.managers.length := h2
        _ = (rows.filter (fun r => keySkipNA r == some k)).length := by
            rw [hmgr, List.length_map]
    · rintro ⟨htNA, h2⟩
      rw [← filter_keySkipNA_eq rows t htNA] at h2
      have hne : rows.filter (fun r => keySkipNA r == some t) ≠ [] := by
        intro hc
        rw [hc] at h2
        simp at h2
      have hsome : (List.lookup t (overlapByTicker rows)).isSome := by
        unfold overlapByTicker
        rw [lookup_foldAssoc_isSome]
        cases hfil : rows.filter (fun r => keySkipNA r == some t) with
        | nil => exact absurd hfil hne
        | cons r0 rs =>
            have : r0 ∈ rows.filter (fun r => keySkipNA r == some t) := by rw [hfil]; simp
            have h3 := List.mem_filter.mp this
            exact ⟨r0, h3.1, by simpa using h3.2⟩
      obtain ⟨d, hd⟩ := Option.isSome_iff_exists.mp hsome
      obtain ⟨htick, hmgr, _, _, _, _⟩ := overlapAgg_of_lookup rows t d hd
      have hlen : d.managers.length = (rows.filter (fun r => keySkipNA r == some t)).length := by
        rw [hmgr, List.length_map]
      refine ⟨mkOverlapEntry d, (hmem_pre (mkOverlapEntry d)).mpr
        ⟨d, ⟨t, hd⟩, by rw [hlen]; exact h2, rfl⟩, ?_⟩
      show d.ticker = t
      exact htick
  · intro e he
    obtain ⟨d, ⟨k, hk⟩, h2, hde⟩ := (hmem_pre e).mp he
    obtain ⟨htick, hmgr, hpcts, hval, hne, hkNA⟩ := overlapAgg_of_lookup rows k d hk
    have het : e.ticker = k := by rw [← hde]; show d.ticker = k; exact htick
    rw [het, ← filter_keySkipNA_eq rows k hkNA]
    refine ⟨?_, ?_, ?_⟩
    · rw [← hde]
      show d.managers.dedup.length = _
      rw [hmgr]
    · rw [← hde]
      show roundTo 2 (d.pcts.sum / (d.pcts.length : ℚ)) = _
      rw [hpcts, List.length_map]
    · rw [← hde]
      show d.total_value = _
      rw [hval]
  · unfold overlapResults
    exact List.sorted_insertionSort overlapOrder _

/-- Two rows of the SAME manager for ticker `T`, at 3% and 5%. -/
def cx4a : Row :=
  { manager := "A", ticker := some "T", name := "T Corp", value_usd := 10
    pct_of_portfolio := 3, rank := 1, sector := none, industry := none
    forward_pe := none, forward_eps_growth := none, dividend_yield := none
    forward_revenue_growth := none, forward_ps := none }

def cx4b : Row :=
  { manager := "A", ticker := some "T", name := "T Corp", value_usd := 20
    pct_of_portfolio := 5, rank := 2, sector := none, industry := none
    forward_pe := none, forward_eps_growth := none, dividend_yield := none
    forward_revenue_growth := none, forward_ps := none }

/-- Counterexample to claim C4 as stated: a ticker held by exactly one
manager through two rows of that manager DOES appear in the overlap output
(with `manager_count = 1`), because the emission test counts rows
(`len(d["managers"]) >= 2`), not distinct managers. -/
theorem compute_overlap_counterexample :
    (overlapResults [cx4a, cx4b]).map (fun e => (e.ticker, e.manager_count)) = [("T", 1)] := by
  decide

/-- Two rows of different managers for ticker `S`, at 3% and 4%. -/
def cx4c : Row :=
  { manager := "A", ticker := some "S", name := "S Corp", value_usd := 10
    pct_of_portfolio := 3, rank := 1, sector := none, industry := none
    forward_pe := none, forward_eps_growth := none, dividend_yield := none
    forward_revenue_growth := none, forward_ps := none }

def cx4d : Row :=
  { manager := "B", ticker := some "S", name := "S Corp", value_usd := 20
    pct_of_portfolio := 4, rank := 1, sector := none, industry := none
    forward_pe := none, forward_eps_growth := none, dividend_yield := none
    forward_revenue_growth := none, forward_ps := none }

/-- Witness for the amended claim C4 at the spec's worked example: a ticker
held by two managers at 3% and 4% appears with `manager_count = 2` and
`avg_pct = 3.5`. -/
theorem compute_overlap_correct_witness :
    ∃ e ∈ overlapResults [cx4c, cx4d],
      e.ticker = "S" ∧ e.manager_count = 2 ∧ e.avg_pct = 7 / 2 := by
  have h := compute_overlap_correct [cx4c, cx4d] "S"
  obtain ⟨e, he, ht⟩ := h.1.mpr ⟨by decide, by decide⟩
  have hfields := h.2.1 e he
  have hfil : [cx4c, cx4d].filter (fun r => r.tickerNA == e.ticker) = [cx4c, cx4d] := by
    rw [ht]; decide
  rw [hfil] at hfields
  refine ⟨e, he, ht, ?_, ?_⟩
  · rw [hfields.1]
    decide
  · rw [hfields.2.1]
    have : (([cx4c, cx4d].map Row.pct_of_portfolio).sum
        / (([cx4c, cx4d] : List Row).length : ℚ)) = 7 / 2 := by
      simp [cx4c, cx4d]
      norm_num
    rw [this]
    unfold roundTo
    norm_num [round_eq]

/-! ### `compute_top_stocks_valuation` portfolio averages (lines 433-469, claim C5) -/

/-- One step of the harmonic-P/E accumulator loop of
`compute_top_stocks_valuation`: skip non-positive weights
(`if w <= 0: continue`), then `if fpe is not None and fpe > 0:
wtd_inv_pe_sum += w / fpe; wtd_inv_pe_wt += w`. The pair is
`(inv_sum, weight_sum)`. -/
def peStep (p : ℚ × ℚ) (d : TopAgg) : ℚ × ℚ :=
  if d.combined_weight ≤ 0 then p
  else match d.forward_pe with
    | some fpe => if 0 < fpe then (p.1 + d.combined_weight / fpe, p.2 + d.combined_weight)
        else p
    | none => p

def peFold (vals : List TopAgg) : ℚ × ℚ := vals.foldl peStep (0, 0)

/-- One step of a growth accumulator loop (`forward_eps_growth` and
`forward_revenue_growth` share this shape): `g = _clamp_growth(sel(...))`;
`if g is not None: wtd_sum += w * g; wtd_wt += w`. The pair is
`(weighted_sum, weight_sum)`. -/
def growthStep (sel : TopAgg → Option ℚ) (p : ℚ × ℚ) (d : TopAgg) : ℚ × ℚ :=
  if d.combined_weight ≤ 0 then p
  else match clampGrowth (sel d) with
    | some g => (p.1 + d.combined_weight * g, p.2 + d.combined_weight)
    | none => p

def egFold (vals : List TopAgg) : ℚ × ℚ :=
  vals.foldl (growthStep TopAgg.forward_eps_growth) (0, 0)

def rgFold (vals : List TopAgg) : ℚ × ℚ :=
  vals.foldl (growthStep TopAgg.forward_revenue_growth) (0, 0)

/-- `avg_pe = round(wtd_inv_pe_wt / wtd_inv_pe_sum, 2) if wtd_inv_pe_sum > 0 else None`. -/
def topPortfolioAvgPe (wrows : List WRow) : Option ℚ :=
  let p := peFold ((topByTicker wrows).map Prod.snd)
  if 0 < p.1 then some (roundTo 2 (p.2 / p.1)) else none

/-- `avg_eg = round(wtd_eg_sum / wtd_eg_wt, 2) if wtd_eg_wt > 0 else None`. -/
def topPortfolioAvgEg (wrows : List WRow) : Option ℚ :=
  let p := egFold ((topByTicker wrows).map Prod.snd)
  if 0 < p.2 then some (roundTo 2 (p.1 / p.2)) else none

/-- `avg_rg = round(wtd_rg_sum / wtd_rg_wt, 2) if wtd_rg_wt > 0 else None`. -/
def topPortfolioAvgRg (wrows : List WRow) : Option ℚ :=
  let p := rgFold ((topByTicker wrows).map Prod.snd)
  if 0 < p.2 then some (roundTo 2 (p.1 / p.2)) else none

/-- Spec-side: the `(weight, PE)` pairs of the deduplicated tickers that
qualify for the harmonic mean (positive weight, non-null positive P/E). -/
def peTerms (vals : List TopAgg) : List (ℚ × ℚ) :=
  vals.filterMap (fun d =>
    if d.combined_weight ≤ 0 then none
    else match d.forward_pe with
      | some fpe => if 0 < fpe then some (d.combined_weight, fpe) else none
      | none => none)

/-- Spec-side: the `(weight, clamped growth)` pairs qualifying for a growth
average; the growth is clamped to `[-50, 50]` before weighting. -/
def growthTerms (sel : TopAgg → Option ℚ) (vals : List TopAgg) : List (ℚ × ℚ) :=
  vals.filterMap (fun d =>
    if d.combined_weight ≤ 0 then none
    else match sel d with
      | some g => some (d.combined_weight, max (-GROWTH_CAP) (min GROWTH_CAP g))
      | none => none)

theorem peFold_eq (vals : List TopAgg) :
    peFold vals = (((peTerms vals).map (fun q => q.1 / q.2)).sum,
                   ((peTerms vals).map Prod.fst).sum) := by
  suffices h : ∀ p : ℚ × ℚ, vals.foldl peStep p
    = (p.1 + ((peTerms vals).map (fun q => q.1 / q.2)).sum,
       p.2 + ((peTerms vals).map Prod.fst).sum) by
    unfold peFold
    rw [h (0, 0)]
    simp
  induction vals with
  | nil => intro p; simp [peTerms]
  | cons d t ih =>
      intro p
      rw [List.foldl_cons]
      by_cases hw : d.combined_weight ≤ 0
      · have hterm : peTerms (d :: t) = peTerms t := by
          unfold peTerms
          rw [List.filterMap_cons]
          simp [hw]
        have hstep : peStep p d = p := by
          unfold peStep
          rw [if_pos hw]
        rw [hterm, hstep]
        exact ih p
      · cases hpe : d.forward_pe with
        | none =>
            have hterm : peTerms (d :: t) = peTerms t := by
              unfold peTerms
              rw [List.filterMap_cons]
              simp [hw, hpe]
            have hstep : peStep p d = p := by
              unfold peStep
              rw [if_neg hw, hpe]
            rw [hterm, hstep]
            exact ih p
        | some fpe =>
            by_cases hp : 0 < fpe
            · have hterm : peTerms (d :: t) = (d.combined_weight, fpe) :: peTerms t := by
                unfold peTerms
                rw [List.filterMap_cons]
                simp [hw, hpe, hp]
              have hstep : peStep p d
                  = (p.1 + d.combined_weight / fpe, p.2 + d.combined_weight) := by
                unfold peStep
                rw [if_neg hw, hpe]
                simp [hp]
              rw [hterm, hstep, ih]
              simp only [List.map_cons, List.sum_cons]
              refine Prod.ext ?_ ?_ <;> simp <;> ring
            · have hterm : peTerms (d :: t) = peTerms t := by
                unfold peTerms
                rw [List.filterMap_cons]
                simp [hw, hpe, hp]
              have hstep : peStep p d = p := by
                unfold peStep
                rw [if_neg hw, hpe]
                simp [hp]
              rw [hterm, hstep]
              exact ih p

theorem growthFold_eq (sel : TopAgg → Option ℚ) (vals : List TopAgg) :
    vals.foldl (growthStep sel) (0, 0)
      = (((growthTerms sel vals).map (fun q => q.1 * q.2)).sum,
         ((growthTerms sel vals).map Prod.fst).sum) := by
  suffices h : ∀ p : ℚ × ℚ, vals.foldl (growthStep sel) p
    = (p.1 + ((growthTerms sel vals).map (fun q => q.1 * q.2)).sum,
       p.2 + ((growthTerms sel vals).map Prod.fst).sum) by
    rw [h (0, 0)]
    simp
  induction vals with
  | nil => intro p; simp [growthTerms]
  | cons d t ih =>
      intro p
      rw [List.foldl_cons]
      by_cases hw : d.combined_weight ≤ 0
      · have hterm : growthTerms sel (d :: t) = growthTerms sel t := by
          unfold growthTerms
          rw [List.filterMap_cons]
          simp [hw]
        have hstep : growthStep sel p d = p := by
          unfold growthStep
          rw [if_pos hw]
        rw [hterm, hstep]
        exact ih p
      · cases hg : sel d with
        | none =>
            have hterm : growthTerms sel (d :: t) = growthTerms sel t := by
              unfold growthTerms
              rw [List.filterMap_cons]
              simp [hw, hg]
            have hstep : growthStep sel p d = p := by
              unfold growthStep
              rw [if_neg hw, hg]
              rfl
            rw [hterm, hstep]
            exact ih p
        | some g =>
            have hterm : growthTerms sel (d :: t)
                = (d.combined_weight, max (-GROWTH_CAP) (min GROWTH_CAP g))
                  :: growthTerms sel t := by
              unfold growthTerms
              rw [List.filterMap_cons]
              simp [hw, hg]
            have hstep : growthStep sel p d
                = (p.1 + d.combined_weight * (max (-GROWTH_CAP) (min GROWTH_CAP g)),
                   p.2 + d.combined_weight) := by
              unfold growthStep
              rw [if_neg hw, hg]
              rfl
            rw [hterm, hstep, ih]
            simp only [List.map_cons, List.sum_cons]
            refine Prod.ext ?_ ?_ <;> simp <;> ring

/-- Two weighted rows whose deduplicated tickers carry weight 50 each with
forward P/E 10 and 20 (the spec's harmonic-mean example). -/
def cx5a : WRow :=
  { manager := "A", ticker := some "T1", name := "T1 Corp", value_usd := 50
    pct_of_portfolio := 50, rank := 1, sector := none, industry := none
    forward_pe := some 10, forward_eps_growth := some 5, dividend_yield := none
    forward_revenue_growth := none, forward_ps := none, combined_weight := 50 }

def cx5b : WRow :=
  { manager := "A", ticker := some "T2", name := "T2 Corp", value_usd := 50
    pct_of_portfolio := 50, rank := 2, sector := none, industry := none
    forward_pe := some 20, forward_eps_growth := some 8, dividend_yield := none
    forward_revenue_growth := none, forward_ps := none, combined_weight := 50 }

/-- Claim C5: the portfolio-level forward P/E is the harmonic weighted mean
`Σ weight / Σ (weight/PE)` (rounded to 2 decimals) over deduplicated tickers
with positive weight, excluding tickers whose forward P/E is null or
non-positive — two tickers at weight 50 with P/E 10 and 20 give 13.33 — and
each growth figure is clamped to `[-50, 50]` before entering its weighted
average, so a value of 120 contributes as 50. -/
theorem top_valuation_portfolio_avg :
    (∀ wrows : List WRow,
      topPortfolioAvgPe wrows
        = (if 0 < ((peTerms ((topByTicker wrows).map Prod.snd)).map (fun q => q.1 / q.2)).sum
           then some (roundTo 2
             (((peTerms ((topByTicker wrows).map Prod.snd)).map Prod.fst).sum
               / ((peTerms ((topByTicker wrows).map Prod.snd)).map (fun q => q.1 / q.2)).sum))
           else none))
    ∧ (∀ wrows : List WRow,
      topPortfolioAvgEg wrows
        = (if 0 < ((growthTerms TopAgg.forward_eps_growth
              ((topByTicker wrows).map Prod.snd)).map Prod.fst).sum
           then some (roundTo 2
             (((growthTerms TopAgg.forward_eps_growth
                 ((topByTicker wrows).map Prod.snd)).map (fun q => q.1 * q.2)).sum
               / ((growthTerms TopAgg.forward_eps_growth
                 ((topByTicker wrows).map Prod.snd)).map Prod.fst).sum))
           else none))
    ∧ (∀ wrows : List WRow,
      topPortfolioAvgRg wrows
        = (if 0 < ((growthTerms TopAgg.forward_revenue_growth
              ((topByTicker wrows).map Prod.snd)).map Prod.fst).sum
           then some (roundTo 2
             (((growthTerms TopAgg.forward_revenue_growth
                 ((topByTicker wrows).map Prod.snd)).map (fun q => q.1 * q.2)).sum
               / ((growthTerms TopAgg.forward_revenue_growth
                 ((topByTicker wrows).map Prod.snd)).map Prod.fst).sum))
           else none))
    ∧ clampGrowth (some 120) = some 50
    ∧ topPortfolioAvgPe [cx5a, cx5b] = some (1333 / 100) := by
  refine ⟨?_, ?_, ?_, ?_, ?_⟩
  · intro wrows
    unfold topPortfolioAvgPe
    rw [peFold_eq]
  · intro wrows
    unfold topPortfolioAvgEg egFold
    rw [growthFold_eq TopAgg.forward_eps_growth]
  · intro wrows
    unfold topPortfolioAvgRg rgFold
    rw [growthFold_eq TopAgg.forward_revenue_growth]
  · unfold clampGrowth GROWTH_CAP
    norm_num
  · have hvals : (topByTicker [cx5a, cx5b]).map Prod.snd
        = [topUpd cx5a topAggInit, topUpd cx5b topAggInit] := rfl
    unfold topPortfolioAvgPe
    rw [hvals, peFold_eq]
    have hterms : peTerms [topUpd cx5a topAggInit, topUpd cx5b topAggInit]
        = [(50, 10), (50, 20)] := by
      unfold peTerms
      simp only [List.filterMap_cons, List.filterMap_nil]
      norm_num [topUpd, topAggInit, cx5a, cx5b]
    rw [hterms]
    unfold roundTo
    norm_num [round_eq]

/-! ### `compute_top_stocks_valuation` stock selection (lines 413-431, claim C6) -/

/-- `s["forward_pe"] is not None and s["forward_eps_growth"] is not None`. -/
def bothValued (d : TopAgg) : Bool := d.forward_pe.isSome && d.forward_eps_growth.isSome

/-- One formatted element of the `stocks` list (`short_name`, a display-only
derivative of `name`, is omitted). In the source the rounded `forward_pe` /
`forward_eps_growth` are only computed on rows where they are non-null;
`getD 0` stands in for that invariant. -/
structure StockOut where
  ticker : String
  name : String
  pct : ℚ
  forward_pe : ℚ
  forward_eps_growth : ℚ
  dividend_yield : Option ℚ
  sector : Option String
  forward_revenue_growth : Option ℚ
  forward_ps : Option ℚ
deriving DecidableEq

def fmtStock (d : TopAgg) : StockOut :=
  { ticker := d.ticker, name := d.name
    pct := roundTo 2 d.combined_weight
    forward_pe := roundTo 2 (d.forward_pe.getD 0)
    forward_eps_growth := roundTo 2 (d.forward_eps_growth.getD 0)
    dividend_yield := d.dividend_yield.map (roundTo 2)
    sector := d.sector
    forward_revenue_growth := d.forward_revenue_growth.map (roundTo 2)
    forward_ps := d.forward_ps.map (roundTo 2) }

/-- `sorted(by_ticker.values(), key=lambda x: -x["combined_weight"])` as a
stable descending-by-weight order. -/
def topGeRel (a b : TopAgg) : Prop := b.combined_weight ≤ a.combined_weight

instance : DecidableRel topGeRel := fun a b => by
  unfold topGeRel
  infer_instance

instance : IsTotal TopAgg topGeRel :=
  ⟨fun a b => (le_total b.combined_weight a.combined_weight).imp id id⟩

instance : IsTrans TopAgg topGeRel :=
  ⟨fun _ _ _ hab hbc => le_trans hbc hab⟩

def sortedTopVals (wrows : List WRow) : List TopAgg :=
  List.insertionSort topGeRel ((topByTicker wrows).map Prod.snd)

/-- The selection loop of `compute_top_stocks_valuation`: walk the sorted
list, append rows having both forward P/E and EPS growth, and break once
`top_n` rows have been appended. -/
def stocksLoop : List TopAgg → ℕ → List StockOut
  | [], _ => []
  | d :: rest, n =>
      if bothValued d then
        if n ≤ 1 then [fmtStock d] else fmtStock d :: stocksLoop rest (n - 1)
      else stocksLoop rest n

def topStocksList (wrows : List WRow) (n : ℕ) : List StockOut :=
  stocksLoop (sortedTopVals wrows) n

theorem stocksLoop_eq_take_filter :
    ∀ (l : List TopAgg) (n : ℕ), 1 ≤ n →
      stocksLoop l n = ((l.filter bothValued).take n).map fmtStock := by
  intro l
  induction l with
  | nil => intro n _; simp [stocksLoop]
  | cons d rest ih =>
      intro n h1
      rw [List.filter_cons]
      by_cases hb : bothValued d
      · simp only [hb, if_true]
        unfold stocksLoop
        rw [hb]
        simp only [if_true]
        by_cases hn : n ≤ 1
        · have : n = 1 := le_antisymm hn h1
          subst this
          simp
        · have h2 : 2 ≤ n := by omega
          have hrec := ih (n - 1) (by omega)
          rw [if_neg hn, hrec]
          obtain ⟨m, hm⟩ : ∃ m, n = m + 1 := ⟨n - 1, by omega⟩
          subst hm
          simp
      · simp only [hb, Bool.false_eq_true, if_false]
        unfold stocksLoop
        rw [if_neg hb]
        exact ih n h1

theorem roundTo_mono (d : ℕ) {x y : ℚ} (h : x ≤ y) : roundTo d x ≤ roundTo d y := by
  unfold roundTo
  have hp : (0:ℚ) < 10 ^ d := by positivity
  have hr : ((round (x * 10 ^ d) : ℤ) : ℚ) ≤ ((round (y * 10 ^ d) : ℤ) : ℚ) := by
    have : round (x * 10 ^ d) ≤ round (y * 10 ^ d) := by
      rw [round_eq, round_eq]
      apply Int.floor_mono
      have := mul_le_mul_of_nonneg_right h (le_of_lt hp)
      linarith
    exact_mod_cast this
  gcongr

/-- Claim C6: the `stocks` list contains exactly the first `n` tickers, in
descending `combined_weight` order, among the deduplicated tickers having
BOTH forward P/E and forward EPS growth non-null; rows missing either are
skipped and do not count toward `n`, and the emitted list is ordered by
descending weight (hence descending rounded `pct`). -/
theorem top_stocks_selection (wrows : List WRow) (n : ℕ) (h : 1 ≤ n) :
    topStocksList wrows n = (((sortedTopVals wrows).filter bothValued).take n).map fmtStock
    ∧ (∀ s ∈ (sortedTopVals wrows).filter bothValued, bothValued s)
    ∧ (((sortedTopVals wrows).filter bothValued).take n).Pairwise topGeRel
    ∧ (topStocksList wrows n).Pairwise (fun a b => b.pct ≤ a.pct) := by
  have hsorted : (sortedTopVals wrows).Pairwise topGeRel :=
    List.sorted_insertionSort topGeRel ((topByTicker wrows).map Prod.snd)
  have hsub : List.Sublist (((sortedTopVals wrows).filter bothValued).take n)
      (sortedTopVals wrows) :=
    List.Sublist.trans (List.take_sublist _ _) (List.filter_sublist _)
  have hpw : (((sortedTopVals wrows).filter bothValued).take n).Pairwise topGeRel :=
    hsorted.sublist hsub
  have heq := stocksLoop_eq_take_filter (sortedTopVals wrows) n h
  refine ⟨heq, fun s hs => List.of_mem_filter hs, hpw, ?_⟩
  show (topStocksList wrows n).Pairwise (fun a b => b.pct ≤ a.pct)
  unfold topStocksList
  rw [heq, List.pairwise_map]
  apply hpw.imp
  intro a b hab
  exact roundTo_mono 2 hab

/-- Witness for claim C6 at `n = 20` on the concrete two-ticker example. -/
theorem top_stocks_selection_witness :
    topStocksList [cx5a, cx5b] 20
      = (((sortedTopVals [cx5a, cx5b]).filter bothValued).take 20).map fmtStock
    ∧ (topStocksList [cx5a, cx5b] 20).Pairwise (fun a b => b.pct ≤ a.pct) := by
  have h := top_stocks_selection [cx5a, cx5b] 20 (by norm_num)
  exact ⟨h.1, h.2.2.2⟩

/-! ### `compute_qoq_diff` (analysis.py lines 944-1027, claims C7 and C10) -/

/-- `r.get("ticker", r["name"])` in `_index_by_manager_ticker`: the company
name is the key only when the row has no `"ticker"` key at all. -/
def keyOf (r : Row) : String := r.ticker.getD r.name

/-- `_index_by_manager_ticker`: a dict of dicts,
`result[r["manager"]][r.get("ticker", r["name"])] = r` (later rows
overwrite earlier ones under the same key). -/
def indexByManagerTicker (rows : List Row) : List (String × List (String × Row)) :=
  foldAssoc (fun r => some r.manager)
    (fun r inner => updateAssoc inner (keyOf r) (fun _ => r) r)
    (fun _ => []) rows

/-- `idx.get(mgr, {}).get(ticker)`. -/
def idxGet (rows : List Row) (m k : String) : Option Row :=
  List.lookup k ((List.lookup m (indexByManagerTicker rows)).getD [])

theorem foldl_replace_getLast (l : List Row) :
    ∀ a : Row, l.foldl (fun _ r => r) a = (l.getLast?).getD a := by
  intro a
  have h := foldl_const_last (fun r : Row => r) l a
  simpa using h

/-- C10 core: the index resolves `(manager, key)` to the LAST row of that
manager whose `ticker`-or-`name` key equals `k`. -/
theorem idxGet_eq_getLast (rows : List Row) (m k : String) :
    idxGet rows m k = (rows.filter (fun r => r.manager == m && keyOf r == k)).getLast? := by
  unfold idxGet indexByManagerTicker
  rw [lookup_foldAssoc]
  have hfil1 : rows.filter (fun r => (some r.manager : Option String) == some m)
      = rows.filter (fun r => r.manager == m) := by
    apply List.filter_congr
    intro r _
    rfl
  rw [hfil1]
  have hff : (rows.filter (fun r => r.manager == m)).filter (fun r => keyOf r == k)
      = rows.filter (fun r => r.manager == m && keyOf r == k) := by
    rw [List.filter_filter]
    apply List.filter_congr
    intro r _
    exact Bool.and_comm _ _
  cases hfil : rows.filter (fun r => r.manager == m) with
  | nil =>
      rw [hfil] at hff
      simp only [List.filter_nil] at hff
      rw [← hff]
      simp [List.lookup]
  | cons r0 rs =>
      rw [hfil] at hff
      simp only [Option.getD_some]
      have hinner : (r0 :: rs).foldl
          (fun (inner : List (String × Row)) r => updateAssoc inner (keyOf r) (fun _ => r) r) []
          = foldAssoc (fun r => some (keyOf r)) (fun r _ => r) (fun r => r) (r0 :: rs) := rfl
      rw [hinner, lookup_foldAssoc]
      rw [← hff]
      cases hfil2 : (r0 :: rs).filter (fun r => keyOf r == k) with
      | nil =>
          have : (r0 :: rs).filter (fun r => (some (keyOf r) : Option String) == some k)
              = (r0 :: rs).filter (fun r => keyOf r == k) := by
            apply List.filter_congr
            intro r _
            rfl
          rw [this, hfil2]
          rfl
      | cons q0 qs =>
          have : (r0 :: rs).filter (fun r => (some (keyOf r) : Option String) == some k)
              = (r0 :: rs).filter (fun r => keyOf r == k) := by
            apply List.filter_congr
            intro r _
            rfl
          rw [this, hfil2]
          simp only []
          rw [foldl_replace_getLast]
          have hb : ∃ b, (q0 :: qs).getLast? = some b := by
            cases hl : (q0 :: qs).getLast? with
            | none => exact absurd (List.getLast?_eq_none_iff.mp hl) (by simp)
            | some b => exact ⟨b, rfl⟩
          obtain ⟨b, hb⟩ := hb
          rw [hb]
          rfl

/-- The set of index keys present for manager `m`. -/
def mgrKeys (rows : List Row) (m : String) : List String :=
  ((List.lookup m (indexByManagerTicker rows)).getD []).map Prod.fst

/-- `sorted(curr_tickers - prev_tickers)`. -/
def newKeys (curr prev : List Row) (m : String) : List String :=
  List.insertionSort (fun a b => a ≤ b)
    ((mgrKeys curr m).filter (fun k => decide (k ∉ mgrKeys prev m)))

/-- `sorted(prev_tickers - curr_tickers)`. -/
def exitedKeys (curr prev : List Row) (m : String) : List String :=
  List.insertionSort (fun a b => a ≤ b)
    ((mgrKeys prev m).filter (fun k => decide (k ∉ mgrKeys curr m)))

/-- `sorted(curr_tickers & prev_tickers)`. -/
def commonKeys (curr prev : List Row) (m : String) : List String :=
  List.insertionSort (fun a b => a ≤ b)
    ((mgrKeys curr m).filter (fun k => decide (k ∈ mgrKeys prev m)))

/-- One itemized changed position. -/
structure ChangedEntry where
  name : String
  ticker : String
  prev_pct : ℚ
  curr_pct : ℚ
  change_pct : ℚ
  prev_value : ℚ
  curr_value : ℚ
  prev_rank : ℚ
  curr_rank : ℚ
deriving DecidableEq

/-- `change_pct = round(curr_pct - prev_pct, 2)` carried with prev/curr
pct, value and rank. -/
def mkChanged (cr pr : Row) : ChangedEntry :=
  { name := cr.name, ticker := cr.tickerNA
    prev_pct := pr.pct_of_portfolio, curr_pct := cr.pct_of_portfolio
    change_pct := roundTo 2 (cr.pct_of_portfolio - pr.pct_of_portfolio)
    prev_value := pr.value_usd, curr_value := cr.value_usd
    prev_rank := pr.rank, curr_rank := cr.rank }

/-- The un-sorted changed list: each common key whose
`|change_pct| >= 0.5` is itemized. -/
def changedRaw (curr prev : List Row) (m : String) : List ChangedEntry :=
  (commonKeys curr prev m).filterMap (fun k =>
    match idxGet curr m k, idxGet prev m k with
    | some cr, some pr =>
        if 1/2 ≤ |roundTo 2 (cr.pct_of_portfolio - pr.pct_of_portfolio)|
        then some (mkChanged cr pr) else none
    | _, _ => none)

/-- The `unchanged` counter: common keys with `|change_pct| < 0.5` are
counted, not itemized. -/
def unchangedCount (curr prev : List Row) (m : String) : ℕ :=
  ((commonKeys curr prev m).filter (fun k =>
    match idxGet curr m k, idxGet prev m k with
    | some cr, some pr =>
        decide (|roundTo 2 (cr.pct_of_portfolio - pr.pct_of_portfolio)| < 1/2)
    | _, _ => false)).length

/-- `changed_positions.sort(key=lambda x: abs(x["change_pct"]), reverse=True)`. -/
def absDescRel (a b : ChangedEntry) : Prop := |b.change_pct| ≤ |a.change_pct|

instance : DecidableRel absDescRel := fun a b => by
  unfold absDescRel
  infer_instance

instance : IsTotal ChangedEntry absDescRel :=
  ⟨fun a b => (le_total |b.change_pct| |a.change_pct|).imp id id⟩

instance : IsTrans ChangedEntry absDescRel :=
  ⟨fun _ _ _ hab hbc => le_trans hbc hab⟩

def changedPositions (curr prev : List Row) (m : String) : List ChangedEntry :=
  List.insertionSort absDescRel (changedRaw curr prev m)

/-- One new/exited position (`name`, `ticker`, `value`, `pct`). -/
structure DiffPos where
  name : String
  ticker : String
  value : ℚ
  pct : ℚ
deriving DecidableEq

def mkDiffPos (r : Row) : DiffPos :=
  { name := r.name, ticker := r.tickerNA, value := r.value_usd, pct := r.pct_of_portfolio }

def newPositions (curr prev : List Row) (m : String) : List DiffPos :=
  (newKeys curr prev m).filterMap (fun k => (idxGet curr m k).map mkDiffPos)

def exitedPositions (curr prev : List Row) (m : String) : List DiffPos :=
  (exitedKeys curr prev m).filterMap (fun k => (idxGet prev m k).map mkDiffPos)

theorem lookup_isSome_of_mem_keys {A : Type} (l : List (String × A)) (k : String)
    (h : k ∈ l.map Prod.fst) : (List.lookup k l).isSome := by
  induction l with
  | nil => simp at h
  | cons p rest ih =>
      obtain ⟨k', v⟩ := p
      by_cases he : k = k'
      · subst he
        simp [List.lookup]
      · have hb : (k == k') = false := by simp [beq_iff_eq, he]
        simp only [List.lookup, hb]
        simp only [List.map_cons, List.mem_cons] at h
        rcases h with h | h
        · exact absurd h he
        · exact ih h

theorem length_filterMap_eq_length_filter {α β : Type} (f : α → Option β) (l : List α) :
    (l.filterMap f).length = (l.filter (fun x => (f x).isSome)).length := by
  induction l with
  | nil => simp
  | cons x t ih =>
      rw [List.filterMap_cons, List.filter_cons]
      cases hf : f x with
      | none => simpa [hf] using ih
      | some b => simpa [hf] using ih

theorem length_filter_compl {α : Type} (l : List α) (p q : α → Bool)
    (h : ∀ x ∈ l, q x = !(p x)) :
    (l.filter p).length + (l.filter q).length = l.length := by
  induction l with
  | nil => simp
  | cons x t ih =>
      have hx := h x (List.mem_cons_self x t)
      have ht := ih (fun y hy => h y (List.mem_cons_of_mem x hy))
      rw [List.filter_cons, List.filter_cons]
      cases hp : p x with
      | true =>
          rw [hp] at hx
          simp only [hx]
          simp only [Bool.not_true, Bool.false_eq_true, if_false, if_true,
            List.length_cons]
          omega
      | false =>
          rw [hp] at hx
          simp only [hx]
          simp only [Bool.not_false, Bool.false_eq_true, if_false, if_true,
            List.length_cons]
          omega

theorem mem_commonKeys_isSome (curr prev : List Row) (m : String) (k : String)
    (hk : k ∈ commonKeys curr prev m) :
    (idxGet curr m k).isSome ∧ (idxGet prev m k).isSome := by
  unfold commonKeys at hk
  rw [List.mem_insertionSort] at hk
  have h1 := List.mem_filter.mp hk
  have hc : k ∈ mgrKeys curr m := h1.1
  have hp : k ∈ mgrKeys prev m := by
    have := h1.2
    simpa using this
  constructor
  · exact lookup_isSome_of_mem_keys _ k hc
  · exact lookup_isSome_of_mem_keys _ k hp

/-- Claim C7: for every ticker present in both snapshots for a manager,
`change_pct = round(curr.pct - prev.pct, 2)`; the position is itemized as
changed exactly when `|change_pct| >= 0.5` and otherwise increments the
unchanged counter (itemized and counted positions partition the common
keys); changed positions are sorted by `|change_pct|` descending and
new/exited position keys ascending. -/
theorem qoq_diff_correct (curr prev : List Row) (m : String) :
    (∀ k ∈ commonKeys curr prev m, ∀ cr pr : Row,
      idxGet curr m k = some cr → idxGet prev m k = some pr →
        ((mkChanged cr pr).change_pct
            = roundTo 2 (cr.pct_of_portfolio - pr.pct_of_portfolio)
         ∧ (mkChanged cr pr ∈ changedPositions curr prev m
              ↔ 1/2 ≤ |roundTo 2 (cr.pct_of_portfolio - pr.pct_of_portfolio)|)))
    ∧ (changedRaw curr prev m).length + unchangedCount curr prev m
        = (commonKeys curr prev m).length
    ∧ (changedPositions curr prev m).Pairwise absDescRel
    ∧ (newKeys curr prev m).Pairwise (· ≤ ·)
    ∧ (exitedKeys curr prev m).Pairwise (· ≤ ·) := by
  refine ⟨?_, ?_, ?_, ?_, ?_⟩
  · intro k hk cr pr hcm hpm
    refine ⟨rfl, ?_⟩
    unfold changedPositions
    rw [List.mem_insertionSort]
    constructor
    · intro hmem
      obtain ⟨k', hk', hf⟩ := List.mem_filterMap.mp hmem
      cases hcm' : idxGet curr m k' with
      | none => rw [hcm'] at hf; cases hf
      | some cr' =>
          cases hpm' : idxGet prev m k' with
          | none => rw [hcm', hpm'] at hf; cases hf
          | some pr' =>
              rw [hcm', hpm'] at hf
              simp only [] at hf
              by_cases hcond :
                  1/2 ≤ |roundTo 2 (cr'.pct_of_portfolio - pr'.pct_of_portfolio)|
              · rw [if_pos hcond] at hf
                have he := Option.some.inj hf
                have hch := congrArg ChangedEntry.change_pct he
                show (1:ℚ)/2 ≤ |roundTo 2 (cr.pct_of_portfolio - pr.pct_of_portfolio)|
                have : (mkChanged cr' pr').change_pct
                    = roundTo 2 (cr'.pct_of_portfolio - pr'.pct_of_portfolio) := rfl
                rw [this] at hch
                have : (mkChanged cr pr).change_pct
                    = roundTo 2 (cr.pct_of_portfolio - pr.pct_of_portfolio) := rfl
                rw [this] at hch
                rw [← hch]
                exact hcond
              · rw [if_neg hcond] at hf
                cases hf
    · intro hcond
      apply List.mem_filterMap.mpr
      refine ⟨k, hk, ?_⟩
      rw [hcm, hpm]
      simp only []
      rw [if_pos hcond]
  · unfold changedRaw unchangedCount
    rw [length_filterMap_eq_length_filter]
    apply length_filter_compl
    intro k hk
    obtain ⟨hc, hp⟩ := mem_commonKeys_isSome curr prev m k hk
    obtain ⟨cr, hcr⟩ := Option.isSome_iff_exists.mp hc
    obtain ⟨pr, hpr⟩ := Option.isSome_iff_exists.mp hp
    rw [hcr, hpr]
    simp only []
    by_cases hcond : 1/2 ≤ |roundTo 2 (cr.pct_of_portfolio - pr.pct_of_portfolio)|
    · rw [if_pos hcond]
      simp only [Option.isSome_some, Bool.not_true]
      exact decide_eq_false (not_lt.mpr hcond)
    · rw [if_neg hcond]
      simp only [Option.isSome_none, Bool.not_false]
      exact decide_eq_true (not_le.mp hcond)
  · exact List.sorted_insertionSort absDescRel _
  · exact List.sorted_insertionSort _ _
  · exact List.sorted_insertionSort _ _

/-- Previous-quarter snapshot for the C7 witness: TICK1 at 2.0%, TICK2 at 2.0%. -/
def qp1 : Row :=
  { manager := "M", ticker := some "TICK1", name := "Tick One", value_usd := 100
    pct_of_portfolio := 2, rank := 1, sector := none, industry := none
    forward_pe := none, forward_eps_growth := none, dividend_yield := none
    forward_revenue_growth := none, forward_ps := none }

def qp2 : Row :=
  { manager := "M", ticker := some "TICK2", name := "Tick Two", value_usd := 100
    pct_of_portfolio := 2, rank := 2, sector := none, industry := none
    forward_pe := none, forward_eps_growth := none, dividend_yield := none
    forward_revenue_growth := none, forward_ps := none }

/-- Current-quarter snapshot: TICK1 moved to 2.3%, TICK2 to 3.0%. -/
def qc1 : Row :=
  { manager := "M", ticker := some "TICK1", name := "Tick One", value_usd := 115
    pct_of_portfolio := 23/10, rank := 1, sector := none, industry := none
    forward_pe := none, forward_eps_growth := none, dividend_yield := none
    forward_revenue_growth := none, forward_ps := none }

def qc2 : Row :=
  { manager := "M", ticker := some "TICK2", name := "Tick Two", value_usd := 150
    pct_of_portfolio := 3, rank := 2, sector := none, industry := none
    forward_pe := none, forward_eps_growth := none, dividend_yield := none
    forward_revenue_growth := none, forward_ps := none }

/-- Witness for claim C7: prev 2.0 → curr 2.3 is NOT itemized (|0.3| < 0.5)
while prev 2.0 → curr 3.0 is itemized with `change_pct = 1.0`. -/
theorem qoq_diff_correct_witness :
    mkChanged qc2 qp2 ∈ changedPositions [qc1, qc2] [qp1, qp2] "M"
    ∧ (mkChanged qc2 qp2).change_pct = 1
    ∧ mkChanged qc1 qp1 ∉ changedPositions [qc1, qc2] [qp1, qp2] "M" := by
  have h := qoq_diff_correct [qc1, qc2] [qp1, qp2] "M"
  have hk2 : "TICK2" ∈ commonKeys [qc1, qc2] [qp1, qp2] "M" := by
    unfold commonKeys
    rw [List.mem_insertionSort]
    decide
  have hk1 : "TICK1" ∈ commonKeys [qc1, qc2] [qp1, qp2] "M" := by
    unfold commonKeys
    rw [List.mem_insertionSort]
    decide
  have hc2 : idxGet [qc1, qc2] "M" "TICK2" = some qc2 := by
    rw [idxGet_eq_getLast]
    rfl
  have hp2 : idxGet [qp1, qp2] "M" "TICK2" = some qp2 := by
    rw [idxGet_eq_getLast]
    rfl
  have hc1 : idxGet [qc1, qc2] "M" "TICK1" = some qc1 := by
    rw [idxGet_eq_getLast]
    rfl
  have hp1 : idxGet [qp1, qp2] "M" "TICK1" = some qp1 := by
    rw [idxGet_eq_getLast]
    rfl
  have h2 := h.1 "TICK2" hk2 qc2 qp2 hc2 hp2
  have h1 := h.1 "TICK1" hk1 qc1 qp1 hc1 hp1
  have hval2 : roundTo 2 (qc2.pct_of_portfolio - qp2.pct_of_portfolio) = 1 := by
    show roundTo 2 ((3:ℚ) - 2) = 1
    unfold roundTo
    norm_num [round_eq]
  have hval1 : roundTo 2 (qc1.pct_of_portfolio - qp1.pct_of_portfolio) = 3/10 := by
    show roundTo 2 ((23/10:ℚ) - 2) = 3/10
    unfold roundTo
    norm_num [round_eq]
  refine ⟨?_, ?_, ?_⟩
  · apply h2.2.mpr
    rw [hval2]
    norm_num
  · rw [h2.1, hval2]
  · intro hmem
    have := h1.2.mp hmem
    rw [hval1, abs_of_pos (by norm_num : (0:ℚ) < 3/10)] at this
    norm_num at this

/-- Unknown-ticker rows of one manager in one snapshot, differing in name. -/
def qnA : Row :=
  { manager := "A", ticker := some "N/A", name := "Alpha Holdings", value_usd := 10
    pct_of_portfolio := 1, rank := 1, sector := none, industry := none
    forward_pe := none, forward_eps_growth := none, dividend_yield := none
    forward_revenue_growth := none, forward_ps := none }

def qnB : Row :=
  { manager := "A", ticker := some "N/A", name := "Beta Industries", value_usd := 20
    pct_of_portfolio := 2, rank := 2, sector := none, industry := none
    forward_pe := none, forward_eps_growth := none, dividend_yield := none
    forward_revenue_growth := none, forward_ps := none }

/-- Unknown-ticker row of the same manager in the other snapshot, under yet
another name. -/
def qnC : Row :=
  { manager := "A", ticker := some "N/A", name := "Gamma Group", value_usd := 30
    pct_of_portfolio := 3, rank := 1, sector := none, industry := none
    forward_pe := none, forward_eps_growth := none, dividend_yield := none
    forward_revenue_growth := none, forward_ps := none }

/-- Claim C10: `_index_by_manager_ticker` indexes a row under its company
name only when the row has no `ticker` key at all; a ticker holding the
sentinel `"N/A"` is indexed under the literal key `"N/A"`, so all of a
manager's unknown-ticker positions in one snapshot collapse into a single
entry (the last row indexed wins) and are diffed against each other across
quarters regardless of name. -/
theorem index_key_fallback :
    (∀ (rows : List Row) (m k : String),
      idxGet rows m k = (rows.filter (fun r => r.manager == m && keyOf r == k)).getLast?)
    ∧ (∀ (r : Row) (t : String), r.ticker = some t → keyOf r = t)
    ∧ (∀ r : Row, r.ticker = none → keyOf r = r.name)
    ∧ idxGet [qnA, qnB] "A" "N/A" = some qnB
    ∧ commonKeys [qnA, qnB] [qnC] "A" = ["N/A"] := by
  refine ⟨idxGet_eq_getLast, ?_, ?_, ?_, ?_⟩
  · intro r t ht
    unfold keyOf
    rw [ht]
    rfl
  · intro r ht
    unfold keyOf
    rw [ht]
    rfl
  · rw [idxGet_eq_getLast]
    rfl
  · decide

/-- Witness for claim C10 on the concrete rows: the `"N/A"`-ticker row is
keyed under the literal `"N/A"`, and a row without a ticker key is keyed
under its name. -/
theorem index_key_fallback_witness :
    keyOf qnA = "N/A"
    ∧ keyOf { qnA with ticker := none } = "Alpha Holdings" := by
  refine ⟨index_key_fallback.2.1 qnA "N/A" rfl, ?_⟩
  have h := index_key_fallback.2.2.1 { qnA with ticker := none } rfl
  rw [h]
  rfl

/-! ### Sector/country normalization (financial_data.py lines 1234-1278, claim C8) -/

/-- `SECTOR_NAME_MAP` from `financial_data.py`. -/
def SECTOR_NAME_MAP : List (String × String) := [
  ("Technology",             "Information Technology"),
  ("Healthcare",             "Health Care"),
  ("Consumer Cyclical",      "Consumer Discretionary"),
  ("Consumer Defensive",     "Consumer Staples"),
  ("Financial Services",     "Financials"),
  ("Basic Materials",        "Materials"),
  ("Communication",          "Communication Services"),
  ("Communication Services", "Communication Services"),
  ("Energy",                 "Energy"),
  ("Industrials",            "Industrials"),
  ("Real Estate",            "Real Estate"),
  ("Utilities",              "Utilities")]

/-- `COUNTRY_NAME_MAP` from `financial_data.py`. -/
def COUNTRY_NAME_MAP : List (String × String) := [
  ("South Korea",          "Korea (South)"),
  ("Korea, Republic of",   "Korea (South)"),
  ("Republic of Korea",    "Korea (South)"),
  ("Cayman Islands",       "Cayman Islands"),
  ("Bermuda",              "Bermuda"),
  ("Hong Kong SAR",        "Hong Kong")]

/-- The common shape of `normalize_sector_name` / `normalize_country_name`:
`if not name: return "Unknown"; return MAP.get(name, name)`. -/
def normName (map : List (String × String)) (name : Option String) : String :=
  match name with
  | none => "Unknown"
  | some s => if s = "" then "Unknown" else (List.lookup s map).getD s

def normalize_sector_name (name : Option String) : String := normName SECTOR_NAME_MAP name

def normalize_country_name (name : Option String) : String := normName COUNTRY_NAME_MAP name

theorem lookup_mem {A : Type} (l : List (String × A)) (k : String) (v : A)
    (h : List.lookup k l = some v) : (k, v) ∈ l := by
  induction l with
  | nil => cases h
  | cons p rest ih =>
      obtain ⟨k', v'⟩ := p
      by_cases he : k = k'
      · subst he
        simp [List.lookup] at h
        simp [h]
      · have hb : (k == k') = false := by simp [beq_iff_eq, he]
        simp only [List.lookup, hb] at h
        exact List.mem_cons_of_mem _ (ih h)

/-- Idempotence of the `normName` shape, given that every value of the map
is non-empty and either unmapped or mapped to itself, and that `"Unknown"`
is not a key. -/
theorem normName_idem (map : List (String × String))
    (hvals : ∀ p ∈ map, p.2 ≠ "" ∧
      (List.lookup p.2 map = none ∨ List.lookup p.2 map = some p.2))
    (hunk : List.lookup "Unknown" map = none) :
    ∀ x : Option String, normName map (some (normName map x)) = normName map x := by
  have hUnk : normName map (some "Unknown") = "Unknown" := by
    simp only [normName]
    rw [if_neg (by decide : ¬("Unknown" = "")), hunk]
    rfl
  intro x
  cases x with
  | none => exact hUnk
  | some s =>
      by_cases hs : s = ""
      · subst hs
        show normName map (some (normName map (some ""))) = normName map (some "")
        have : normName map (some "") = "Unknown" := by
          simp only [normName]
          simp
        rw [this]
        exact hUnk
      · have hstep : normName map (some s) = (List.lookup s map).getD s := by
          simp only [normName]
          rw [if_neg hs]
        rw [hstep]
        cases hl : List.lookup s map with
        | none =>
            show normName map (some s) = (none : Option String).getD s
            rw [hstep, hl]
        | some v =>
            obtain ⟨hv, hvl⟩ := hvals (s, v) (lookup_mem map s v hl)
            show normName map (some v) = (some v).getD s
            simp only [normName]
            rw [if_neg hv]
            rcases hvl with h2 | h2 <;> rw [h2] <;> rfl

/-- Claim C8: `normalize_sector_name` is idempotent for all inputs —
unmapped or already-canonical labels map to themselves and empty/null input
maps to `"Unknown"` — and the same holds for `normalize_country_name`. -/
theorem normalize_sector_idempotent :
    (∀ x : Option String,
      normalize_sector_name (some (normalize_sector_name x)) = normalize_sector_name x)
    ∧ (∀ s : String, s ≠ "" → List.lookup s SECTOR_NAME_MAP = none →
        normalize_sector_name (some s) = s)
    ∧ normalize_sector_name none = "Unknown"
    ∧ normalize_sector_name (some "") = "Unknown"
    ∧ (∀ x : Option String,
      normalize_country_name (some (normalize_country_name x)) = normalize_country_name x)
    ∧ (∀ s : String, s ≠ "" → List.lookup s COUNTRY_NAME_MAP = none →
        normalize_country_name (some s) = s)
    ∧ normalize_country_name none = "Unknown"
    ∧ normalize_country_name (some "") = "Unknown" := by
  refine ⟨?_, ?_, rfl, rfl, ?_, ?_, rfl, rfl⟩
  · exact normName_idem SECTOR_NAME_MAP (by decide) (by decide)
  · intro s hs hl
    unfold normalize_sector_name
    simp only [normName]
    rw [if_neg hs, hl]
    rfl
  · exact normName_idem COUNTRY_NAME_MAP (by decide) (by decide)
  · intro s hs hl
    unfold normalize_country_name
    simp only [normName]
    rw [if_neg hs, hl]
    rfl

/-- Witness for claim C8: idempotence at the mapped label `Technology` and
identity on the unmapped canonical label `Financials`. -/
theorem normalize_sector_idempotent_witness :
    normalize_sector_name (some (normalize_sector_name (some "Technology")))
      = normalize_sector_name (some "Technology")
    ∧ normalize_sector_name (some "Financials") = "Financials" := by
  refine ⟨normalize_sector_idempotent.1 (some "Technology"), ?_⟩
  exact normalize_sector_idempotent.2.1 "Financials" (by decide) (by decide)

/-! ### `batch_fetch_financial_data` (financial_data.py lines 1183-1223, claim C9)

The worker pool's nondeterministic completion order is modelled as an
explicit permutation `order` of the submitted tickers; each worker's outcome
is a function `outcome` (`none` = the worker raised). The fan-in loop over
`as_completed` is sequential and deterministic given the order. -/

/-- `_empty_result()` from `financial_data.py`: every enrichment field null. -/
structure EnrichmentRecord where
  prior_price_qtr_end : Option ℚ := none
  prior_quarter_return_pct : Option ℚ := none
  prior_reported_eps : Option ℚ := none
  prior_consensus_eps : Option ℚ := none
  prior_eps_beat_dollars : Option ℚ := none
  prior_eps_beat_pct : Option ℚ := none
  filing_price_qtr_end : Option ℚ := none
  filing_quarter_return_pct : Option ℚ := none
  filing_reported_eps : Option ℚ := none
  filing_consensus_eps : Option ℚ := none
  filing_eps_beat_dollars : Option ℚ := none
  filing_eps_beat_pct : Option ℚ := none
  forward_pe : Option ℚ := none
  forward_eps_growth : Option ℚ := none
  dividend_yield : Option ℚ := none
  trailing_eps : Option ℚ := none
  forward_eps : Option ℚ := none
  qtd_return_pct : Option ℚ := none
  qtd_price_start : Option ℚ := none
  monthly_returns : Option (List MonthRet) := none
  current_price : Option ℚ := none
  forward_revenue_growth : Option ℚ := none
  forward_ps : Option ℚ := none
  sector : Option String := none
  industry : Option String := none
  country : Option String := none
deriving DecidableEq

def emptyResult : EnrichmentRecord := {}

/-- One iteration of the `as_completed` fan-in loop: store the worker's
result (or the all-null record if it raised), bump `done`, and invoke
`progress_callback(done, total)` (recorded as a trace entry; the callback's
own exceptions are swallowed, so it cannot influence the state). -/
def batchStep (outcome : String → Option EnrichmentRecord) (total : ℕ)
    (st : List (String × EnrichmentRecord) × ℕ × List (ℕ × ℕ)) (t : String) :
    List (String × EnrichmentRecord) × ℕ × List (ℕ × ℕ) :=
  let res := match outcome t with
    | some v => v
    | none => emptyResult
  (updateAssoc st.1 t (fun _ => res) res, st.2.1 + 1, st.2.2 ++ [(st.2.1 + 1, total)])

/-- `batch_fetch_financial_data`: returns the ticker → record dict and the
trace of `progress_callback(done, total)` invocations. -/
def batchFetch (tickers order : List String)
    (outcome : String → Option EnrichmentRecord) :
    List (String × EnrichmentRecord) × List (ℕ × ℕ) :=
  if tickers.isEmpty then ([], [])
  else
    let fin := order.foldl (batchStep outcome tickers.length) ([], 0, [])
    (fin.1, fin.2.2)

theorem batchFold_spec (outcome : String → Option EnrichmentRecord) (total : ℕ)
    (order : List String) :
    ∀ (res : List (String × EnrichmentRecord)) (done : ℕ) (tr : List (ℕ × ℕ)),
      order.foldl (batchStep outcome total) (res, done, tr)
        = (order.foldl (fun acc t => updateAssoc acc t
              (fun _ => (outcome t).getD emptyResult) ((outcome t).getD emptyResult)) res,
           done + order.length,
           tr ++ (List.range order.length).map (fun i => (done + i + 1, total))) := by
  induction order with
  | nil => intro res done tr; simp
  | cons t rest ih =>
      intro res done tr
      rw [List.foldl_cons]
      have hstep : batchStep outcome total (res, done, tr) t
          = (updateAssoc res t (fun _ => (outcome t).getD emptyResult)
              ((outcome t).getD emptyResult), done + 1, tr ++ [(done + 1, total)]) := by
        unfold batchStep
        cases houtcome : outcome t <;> rfl
      rw [hstep, ih]
      rw [List.foldl_cons]
      refine Prod.ext rfl (Prod.ext ?_ ?_)
      · show done + 1 + rest.length = done + (rest.length + 1)
        omega
      · show tr ++ [(done + 1, total)]
            ++ (List.range rest.length).map (fun i => (done + 1 + i + 1, total))
          = tr ++ (List.range (rest.length + 1)).map (fun i => (done + i + 1, total))
        rw [List.range_succ_eq_map, List.map_cons, List.map_map, List.append_assoc]
        congr 1
        rw [List.singleton_append]
        congr 1
        apply List.map_congr_left
        intro i _
        show (done + 1 + i + 1, total) = (done + (i + 1) + 1, total)
        congr 1
        omega

theorem lookup_batch_results (outcome : String → Option EnrichmentRecord)
    (order : List String) :
    ∀ (res : List (String × EnrichmentRecord)) (t : String),
      List.lookup t (order.foldl (fun acc u => updateAssoc acc u
          (fun _ => (outcome u).getD emptyResult) ((outcome u).getD emptyResult)) res)
        = if t ∈ order then some ((outcome t).getD emptyResult) else List.lookup t res := by
  induction order with
  | nil => intro res t; simp
  | cons u rest ih =>
      intro res t
      rw [List.foldl_cons, ih]
      by_cases hmem : t ∈ rest
      · simp [hmem, List.mem_cons]
      · by_cases he : t = u
        · subst he
          rw [if_neg hmem, if_pos (List.mem_cons_self t rest)]
          rw [lookup_updateAssoc_self]
        · have : t ∉ u :: rest := by
            intro hc
            rcases List.mem_cons.mp hc with h | h
            · exact he h
            · exact hmem h
          rw [if_neg hmem, if_neg this]
          exact lookup_updateAssoc_ne res t u _ _ he

/-- Claim C9: for every ticker list and every completion order and worker
outcome, the batch returns a result for every ticker — a raising worker
yields the all-null record rather than aborting — and the progress callback
is invoked exactly `N` times with `done` taking the strictly increasing
values `1..N` (always paired with `total = N`); its own exceptions are
swallowed, so it has no influence on the returned state at all. -/
theorem batch_fetch_correct (tickers order : List String)
    (outcome : String → Option EnrichmentRecord) (hperm : order.Perm tickers) :
    (∀ t ∈ tickers,
      List.lookup t (batchFetch tickers order outcome).1
        = some ((outcome t).getD emptyResult))
    ∧ (batchFetch tickers order outcome).2
        = (List.range tickers.length).map (fun i => (i + 1, tickers.length))
    ∧ (batchFetch tickers order outcome).2.length = tickers.length
    ∧ ((batchFetch tickers order outcome).2.map Prod.fst).Pairwise (· < ·) := by
  by_cases hempty : tickers.isEmpty
  · have htick : tickers = [] := List.isEmpty_iff.mp hempty
    subst htick
    unfold batchFetch
    simp
  · have hlen : order.length = tickers.length := hperm.length_eq
    have hbf : batchFetch tickers order outcome
        = ((order.foldl (fun acc t => updateAssoc acc t
              (fun _ => (outcome t).getD emptyResult) ((outcome t).getD emptyResult)) [],
           (List.range order.length).map (fun i => (i + 1, tickers.length)))) := by
      unfold batchFetch
      rw [if_neg hempty]
      simp only []
      rw [batchFold_spec]
      refine Prod.ext rfl ?_
      simp only [List.nil_append]
      apply List.map_congr_left
      intro i _
      simp
    refine ⟨?_, ?_, ?_, ?_⟩
    · intro t ht
      rw [hbf]
      simp only []
      rw [lookup_batch_results]
      rw [if_pos (hperm.mem_iff.mpr ht)]
    · rw [hbf, hlen]
    · rw [hbf]
      simp [hlen]
    · rw [hbf]
      simp only [List.map_map]
      have : ((List.range order.length).map
          (Prod.fst ∘ fun i => (i + 1, tickers.length))) = (List.range order.length).map
          (fun i => i + 1) := by
        apply List.map_congr_left
        intro i _
        rfl
      rw [this]
      rw [List.pairwise_map]
      apply List.Pairwise.imp _ (List.pairwise_lt_range order.length)
      intro a b hab
      omega

/-- A batch of 5 tickers whose `GOOG` worker raises. -/
def tickers5 : List String := ["AAPL", "MSFT", "GOOG", "AMZN", "META"]

def okResult : EnrichmentRecord := { sector := some "Information Technology" }

def outcome5 (t : String) : Option EnrichmentRecord :=
  if t = "GOOG" then none else some okResult

/-- Witness for claim C9: with completion in reverse submission order and
the `GOOG` worker raising, `GOOG` still maps to the all-null record, a
non-raising ticker maps to its fetched record, and the callback trace is
exactly `(1,5) ... (5,5)`. -/
theorem batch_fetch_correct_witness :
    List.lookup "GOOG" (batchFetch tickers5 tickers5.reverse outcome5).1 = some emptyResult
    ∧ List.lookup "AAPL" (batchFetch tickers5 tickers5.reverse outcome5).1 = some okResult
    ∧ (batchFetch tickers5 tickers5.reverse outcome5).2
        = [(1, 5), (2, 5), (3, 5), (4, 5), (5, 5)] := by
  have h := batch_fetch_correct tickers5 tickers5.reverse outcome5 (tickers5.reverse_perm)
  refine ⟨?_, ?_, ?_⟩
  · have := h.1 "GOOG" (by decide)
    rw [this]
    rfl
  · have := h.1 "AAPL" (by decide)
    rw [this]
    rfl
  · rw [h.2.1]
    rfl

end HoldingsApp
